import Mathlib

/-!
Verification of the simple-json-parser library (lexer, recursive-descent
parser, canonical printer) against its natural-language specification.

The Rust source is shallowly embedded:

* `Token` mirrors `lexer.rs`'s `Token` enum; `JItem` mirrors `j_item.rs`'s
  `JItem` enum, with Rust `String` modelled as `List Char` and the
  `HashMap<String, JItem>` of an object modelled as an association list in
  parser-insertion order (one concrete iteration order of the map).
* The numeric payload (an `f64` in `lexer.rs`, produced by
  `built_string.parse::<f64>()` from a literal of shape
  `'-'? digit* ('.' digit*)?`) is modelled exactly by `JNum`: an integer
  numerator together with a base-10 exponent, denoting `num / 10 ^ exp`.
  This is the exact decimal value the literal spells; the spec declares
  "numeric precision beyond standard floating-point representation" a
  non-goal, and all concrete literals appearing in the spec's examples are
  exactly representable in `f64`, so the abstraction is faithful there.
* Rust's `Result` is modelled by `Except`; the possibility of a `panic!`
  (from `.unwrap()`) is modelled by a dedicated `panic` outcome of the
  lexer's result type.
* Loops that consume the character / token stream are modelled as
  fuel-indexed structural recursions (each loop iteration consumes fuel);
  the public entry points instantiate the fuel with a bound that is proved
  sufficient, so the fuel is an artifact that the lemmas discharge.
-/

set_option maxRecDepth 4000

/-- Decimal digit test, mirroring Rust's `c.is_digit(10)`. -/
def isDigitChar (c : Char) : Bool := '0' ≤ c && c ≤ '9'

/-- Alphabetic test, mirroring the `'a'..='z' | 'A'..='Z'` arms in `lexer.rs`. -/
def isAlphaChar (c : Char) : Bool := ('a' ≤ c && c ≤ 'z') || ('A' ≤ c && c ≤ 'Z')

/-- Whitespace test, mirroring the `' ' | '\n' | '\t' | '\r'` arm of `lex`. -/
def isWsChar (c : Char) : Bool := c = ' ' || c = '\n' || c = '\t' || c = '\r'

/-- The numeric value of a decimal digit character. -/
def digitVal (c : Char) : ℕ := c.toNat - 48

/-- The digit character of a value `< 10`. -/
def digitChr (d : ℕ) : Char := Char.ofNat (48 + d)

/-- Value of a big-endian string of decimal digits (the usual left fold). -/
def digitsVal (l : List Char) : ℕ := l.foldl (fun acc c => 10 * acc + digitVal c) 0

/-- The exact value of an `f64` produced by the lexer: the literal
`num / 10 ^ exp`.  `lexer.rs` stores `built_string.parse::<f64>()`; on the
literal shapes the lexer builds, that is the decimal value spelled by the
literal (up to `f64` rounding, which the spec declares out of scope), and
`JNum` records that decimal value exactly. -/
structure JNum where
  num : ℤ
  exp : ℕ
  deriving DecidableEq, Repr

/-- The rational number a `JNum` denotes. -/
def JNum.denote (q : JNum) : ℚ := (q.num : ℚ) / 10 ^ q.exp

/-- `lexer.rs`: `enum Token`. -/
inductive Token where
  | LBrace : Token
  | RBrace : Token
  | LSquareBracket : Token
  | RSquareBracket : Token
  | Colon : Token
  | Comma : Token
  | Number : JNum → Token
  | String : List Char → Token
  | True : Token
  | False : Token
  | Null : Token
  deriving DecidableEq, Repr

/-- `j_item.rs`: `enum JItem`.  The object payload is the map's contents as an
association list in parser-insertion order; `parse_jobject` guarantees the
keys are distinct, matching the `HashMap`.  The numeric payload follows the
lexer/parser/`lib.rs`-test side of the source, which stores the `f64` of the
number token (see the C4 analysis: `j_item.rs` itself declares `Number(i64)`,
which contradicts the rest of the crate). -/
inductive JItem where
  | Object : List (List Char × JItem) → JItem
  | String : List Char → JItem
  | Array : List JItem → JItem
  | Number : JNum → JItem
  | True : JItem
  | False : JItem
  | Null : JItem

/-- Lexical errors, one constructor per `Err(...)` site in `lexer.rs`; the
constructor's fields are exactly the data the Rust format string embeds.

* `unknownSymbol c`: `"Unknown symbol '{c}'"`
* `unterminatedString`: `"unterminated string literal. reached EOF."`
* `unknownKeyword w`: `"unknown keyword '{w}'"`
* `multipleDecimal`: `"multiple '.' found in number literal."`
* `outOfFuel` is the fuel artifact; it is unreachable for the fuel bound the
  entry point uses (`lexLoopF_fuel_irrelevant`). -/
inductive LErr where
  | unknownSymbol : Char → LErr
  | unterminatedString : LErr
  | unknownKeyword : List Char → LErr
  | multipleDecimal : LErr
  | outOfFuel : LErr
  deriving DecidableEq, Repr

/-- Outcome of a lexer phase: `Ok`, `Err`, or a process-aborting `panic!`
(the `.unwrap()` in `lex_number`). -/
inductive LexRes (α : Type) where
  | ok : α → LexRes α
  | err : LErr → LexRes α
  | panic : LexRes α
  deriving DecidableEq, Repr

/-- The scanning loop of `lex_number`: Rust peeks at each character, pushing
digits, pushing a first `'.'`, erroring on a second `'.'`, and stopping at
anything else.  Returns the accumulated literal and the unconsumed rest. -/
def lexNumGo : List Char → Bool → List Char → LexRes (List Char × List Char)
  | [], _, acc => .ok (acc, [])
  | c :: cs, hasDec, acc =>
    if isDigitChar c then lexNumGo cs hasDec (acc ++ [c])
    else if c = '.' then
      if hasDec then .err .multipleDecimal
      else lexNumGo cs Bool.true (acc ++ [c])
    else .ok (acc, c :: cs)

/-- The unsigned part of the value `built_string.parse::<f64>()` yields:
split the literal at its (single) dot into integer digits and fractional
digits; the value is `int.frac`, recorded exactly as
`(int * 10 ^ |frac| + frac) / 10 ^ |frac|`. -/
def numValueAbs (l : List Char) : JNum :=
  let intPart := l.takeWhile (fun c => c ≠ '.')
  match l.dropWhile (fun c => c ≠ '.') with
  | [] => ⟨(digitsVal intPart : ℤ), 0⟩
  | _ :: frac =>
    ⟨(digitsVal intPart * 10 ^ frac.length + digitsVal frac : ℕ), frac.length⟩

/-- The value `built_string.parse::<f64>()` yields on a literal of the shape
`lex_number` builds (`'-'? (digit | '.')*`, at most one dot, at least one
digit): optional sign, then integer digits, then fractional digits. -/
def numValue (l : List Char) : JNum :=
  if l.head? = some '-' then
    let a := numValueAbs l.tail
    ⟨-a.num, a.exp⟩
  else numValueAbs l

/-- `lexer.rs`: `lex_number`.  `c` is the already-consumed first character
(`'-'` or a digit).  The final `built_string.parse().unwrap()` panics exactly
when the built literal has no digit (e.g. the input `"-"`), since Rust's
`f64::from_str` rejects such literals; otherwise the parsed value is the
decimal the literal spells. -/
def lex_number (l : List Char) (c : Char) : LexRes (Token × List Char) :=
  match lexNumGo l false [c] with
  | .ok (built, rest) =>
    if built.any isDigitChar then .ok (.Number (numValue built), rest)
    else .panic
  | .err e => .err e
  | .panic => .panic

/-- The loop of `lex_string` in `lexer.rs`: consume characters after the
opening quote; a pending escape copies the next character verbatim, a
backslash sets the escape flag, an unescaped quote terminates, end of input
is the "unterminated string literal" error. -/
def lexStrGo : List Char → Bool → List Char → LexRes (List Char × List Char)
  | [], _, _ => .err .unterminatedString
  | c :: cs, Bool.true, acc => lexStrGo cs false (acc ++ [c])
  | c :: cs, Bool.false, acc =>
    if c = '\\' then lexStrGo cs Bool.true acc
    else if c = '"' then .ok (acc, cs)
    else lexStrGo cs false (acc ++ [c])

/-- `lexer.rs`: `lex_string` (called after the opening `'"'` was consumed). -/
def lex_string (l : List Char) : LexRes (Token × List Char) :=
  match lexStrGo l false [] with
  | .ok (s, rest) => .ok (.String s, rest)
  | .err e => .err e
  | .panic => .panic

/-- The scanning loop of `lex_ident`: consume a maximal run of alphabetic
characters (the first character `c` was already consumed by the caller). -/
def lexIdentGo : List Char → List Char → List Char × List Char
  | [], acc => (acc, [])
  | c :: cs, acc => if isAlphaChar c then lexIdentGo cs (acc ++ [c]) else (acc, c :: cs)

/-- `lexer.rs`: `lex_ident`: an alphabetic run must be exactly `true`,
`false` or `null`; anything else is the "unknown keyword" error. -/
def lex_ident (l : List Char) (c : Char) : LexRes (Token × List Char) :=
  let p := lexIdentGo l [c]
  if p.1 = "true".data then .ok (.True, p.2)
  else if p.1 = "false".data then .ok (.False, p.2)
  else if p.1 = "null".data then .ok (.Null, p.2)
  else .err (.unknownKeyword p.1)

/-- The token-producing match arms of the `lex` loop in `lexer.rs`, in source
order: the six structural characters, `'-'` and digits entering `lex_number`,
`'"'` entering `lex_string`, alphabetic characters entering `lex_ident`, and
the "unknown symbol" error.  (The whitespace arm, which produces no token, is
handled by the loop itself; all arms are mutually exclusive, so testing
whitespace outside this dispatch does not change the behavior.) -/
def lexDispatch (c : Char) (cs : List Char) : LexRes (Token × List Char) :=
  if c = '{' then .ok (.LBrace, cs)
  else if c = '}' then .ok (.RBrace, cs)
  else if c = '[' then .ok (.LSquareBracket, cs)
  else if c = ']' then .ok (.RSquareBracket, cs)
  else if c = ':' then .ok (.Colon, cs)
  else if c = ',' then .ok (.Comma, cs)
  else if c = '-' then lex_number cs c
  else if c = '"' then lex_string cs
  else if isAlphaChar c then lex_ident cs c
  else if isDigitChar c then lex_number cs c
  else .err (.unknownSymbol c)

/-- The `while let Some(c) = i.next()` loop of `lex` in `lexer.rs`: consume a
character, skip it if it is whitespace, otherwise dispatch, push the produced
token and continue on the rest.  The fuel only bounds the number of loop
iterations; `lexText` instantiates it so that it never runs out. -/
def lexLoopF : ℕ → List Char → LexRes (List Token)
  | _, [] => .ok []
  | 0, _ :: _ => .err .outOfFuel
  | fuel + 1, c :: cs =>
    if isWsChar c then lexLoopF fuel cs
    else
      match lexDispatch c cs with
      | .ok (t, rest) =>
        match lexLoopF fuel rest with
        | .ok ts => .ok (t :: ts)
        | .err e => .err e
        | .panic => .panic
      | .err e => .err e
      | .panic => .panic

/-- `lexer.rs`: `lex`, at a fuel that the input length bounds. -/
def lexText (s : List Char) : LexRes (List Token) := lexLoopF (s.length + 1) s

/-- Parser errors, one constructor per `Err(...)` site in `parser.rs`; the
constructor's fields are exactly the data the Rust format string embeds.

* `eofItem`: `"tried to parse JItem, but got EOF."`
* `unexpectedToken t`: `"Unexpected '{t:?}' during parse."` (the catch-all
  arm of `parse_jitem`)
* `expectedStringKey t`: `"expected string key for jobject but got {t:?}"`
* `duplicateKey k`: `"duplicate key found in jobject: '{k}'"`
* `eofLoop`: `"unexpected EOF during parse of array."` (used by both the
  object loop and the array loop)
* `expectMismatch expected got`:
  `"Unexpected token during parse. Expected {expected:?} but got {got:?}"`
* `expectEof expected`:
  `"Unexpected EOF during parse. Expected {expected:?} but got EOF."`
* `tokensLeft`: `"Parsing finished with tokens left."`
* `outOfFuel` is the fuel artifact; it is unreachable for the fuel bound the
  entry point uses (`parse_jitemF_fuel_irrelevant`). -/
inductive PErr where
  | eofItem : PErr
  | unexpectedToken : Token → PErr
  | expectedStringKey : Token → PErr
  | duplicateKey : List Char → PErr
  | eofLoop : PErr
  | expectMismatch : Token → Token → PErr
  | expectEof : Token → PErr
  | tokensLeft : PErr
  | outOfFuel : PErr
  deriving DecidableEq, Repr

/-- `std::mem::discriminant` equality on tokens: same constructor, payloads
ignored. -/
def sameKind : Token → Token → Bool
  | .LBrace, .LBrace => true
  | .RBrace, .RBrace => true
  | .LSquareBracket, .LSquareBracket => true
  | .RSquareBracket, .RSquareBracket => true
  | .Colon, .Colon => true
  | .Comma, .Comma => true
  | .Number _, .Number _ => true
  | .String _, .String _ => true
  | .True, .True => true
  | .False, .False => true
  | .Null, .Null => true
  | _, _ => false

/-- `parser.rs`: `expect_token`: consume the next token; succeed when its
discriminant matches the expected token's, otherwise report expected-vs-got
(or expected-vs-EOF).  Returns the remaining tokens. -/
def expect_token (l : List Token) (expected : Token) : Except PErr (List Token) :=
  match l with
  | [] => .error (.expectEof expected)
  | t :: ts => if sameKind t expected then .ok ts else .error (.expectMismatch expected t)

mutual

/-- `parser.rs`: `parse_jitem`: consume one token and dispatch on it; EOF and
the structural tokens that cannot start a value are errors.  Returns the item
and the remaining tokens.  The fuel bounds the recursion depth of the mutual
loop and is instantiated by `parse_tokens` so that it never runs out. -/
def parse_jitemF : ℕ → List Token → Except PErr (JItem × List Token)
  | 0, _ => .error .outOfFuel
  | _ + 1, [] => .error .eofItem
  | fuel + 1, t :: ts =>
    match t with
    | .LBrace => parse_jobjectF fuel ts []
    | .LSquareBracket => parse_jarrayF fuel ts []
    | .Number q => .ok (.Number q, ts)
    | .String s => .ok (.String s, ts)
    | .True => .ok (.True, ts)
    | .False => .ok (.False, ts)
    | .Null => .ok (.Null, ts)
    | _ => .error (.unexpectedToken t)

/-- `parser.rs`: the `while let Some(next) = tokens.peek()` loop of
`parse_jobject`, entered after the `{` was consumed; `acc` is the map built
so far, kept in insertion order.  Peek: a `}` closes the object; otherwise
the token must be a string key that is not already present; consume it,
require a `:`, parse the value, insert; then a peeked `}` closes the object,
otherwise require a `,` and continue.  EOF at either peek is the
(array-worded) EOF error. -/
def parse_jobjectF : ℕ → List Token → List (List Char × JItem) →
    Except PErr (JItem × List Token)
  | 0, _, _ => .error .outOfFuel
  | _ + 1, [], _ => .error .eofLoop
  | fuel + 1, t :: ts, acc =>
    if t = .RBrace then .ok (.Object acc, ts)
    else
      match t with
      | .String key =>
        if (acc.map Prod.fst).contains key then .error (.duplicateKey key)
        else
          match expect_token ts .Colon with
          | .error e => .error e
          | .ok ts1 =>
            match parse_jitemF fuel ts1 with
            | .error e => .error e
            | .ok (v, ts2) =>
              if ts2.head? = some .RBrace then .ok (.Object (acc ++ [(key, v)]), ts2.tail)
              else
                match expect_token ts2 .Comma with
                | .error e => .error e
                | .ok ts3 => parse_jobjectF fuel ts3 (acc ++ [(key, v)])
      | _ => .error (.expectedStringKey t)

/-- `parser.rs`: the loop of `parse_jarray`, entered after the `[` was
consumed; `acc` is the element list built so far.  Peek: a `]` closes the
array; otherwise parse a value (the peeked token is not consumed first),
push it; then a peeked `]` closes the array, otherwise require a `,` and
continue.  EOF at either peek is the EOF error. -/
def parse_jarrayF : ℕ → List Token → List JItem → Except PErr (JItem × List Token)
  | 0, _, _ => .error .outOfFuel
  | _ + 1, [], _ => .error .eofLoop
  | fuel + 1, t :: ts, acc =>
    if t = .RSquareBracket then .ok (.Array acc, ts)
    else
      match parse_jitemF fuel (t :: ts) with
      | .error e => .error e
      | .ok (v, ts2) =>
        if ts2.head? = some .RSquareBracket then .ok (.Array (acc ++ [v]), ts2.tail)
        else
          match expect_token ts2 .Comma with
          | .error e => .error e
          | .ok ts3 => parse_jarrayF fuel ts3 (acc ++ [v])

end

/-- `parser.rs`: `parse` (the spec's `parse_tokens`): parse one item, then
fail with the "tokens left" error if anything remains.  The fuel bound
`2 * length + 1` is sufficient (`parse_jitemF_fuel_irrelevant`). -/
def parse_tokens (l : List Token) : Except PErr JItem :=
  match parse_jitemF (2 * l.length + 1) l with
  | .ok (v, []) => .ok v
  | .ok (_, _ :: _) => .error .tokensLeft
  | .error e => .error e

/-- Outcome of the facade `parse` in `lib.rs`: the value, a lexer error, a
parser error, or the lexer's panic. -/
inductive POut where
  | ok : JItem → POut
  | lexErr : LErr → POut
  | parseErr : PErr → POut
  | panic : POut

/-- `lib.rs`: `parse`: run the lexer, then the parser on its tokens,
propagating the first failure. -/
def parseText (s : List Char) : POut :=
  match lexText s with
  | .ok ts =>
    match parse_tokens ts with
    | .ok v => .ok v
    | .error e => .parseErr e
  | .err e => .lexErr e
  | .panic => .panic

/-! ## Grammar recognizers

Two executable recognizers of token languages, written from the
specification's grammar (not from the parser), used to settle the claims
that compare `parse_tokens` with the grammar.

* `recStrictValF` recognizes the spec's grammar exactly as the claim states
  it: `value := object | array | STRING | NUMBER | TRUE | FALSE | NULL`,
  `object := '{' (pair (',' pair)*)? '}'`, `pair := STRING ':' value`,
  `array := '[' (value (',' value)*)? ']'` — in particular, no trailing
  comma and no condition on keys.
* `recValF` recognizes the amended language: the same grammar except that a
  nonempty pair/value list may end with one extra `','` before the closing
  bracket, and an object's pair keys must be pairwise distinct.

Both take the same fuel as the parser; `some rest` means a value was derived
from a prefix, leaving `rest`. -/
mutual

/-- Amended-grammar recognizer for `value`: a single literal token, or a
bracketed object/array. -/
def recValF : ℕ → List Token → Option (List Token)
  | 0, _ => none
  | _ + 1, [] => none
  | fuel + 1, t :: ts =>
    match t with
    | .LBrace => recObjF fuel ts []
    | .LSquareBracket => recArrF fuel ts
    | .Number _ => some ts
    | .String _ => some ts
    | .True => some ts
    | .False => some ts
    | .Null => some ts
    | _ => none

/-- Amended-grammar recognizer for the part of an object after `'{'` or after
a `','`: a `'}'` closes it (this also accepts the trailing comma); otherwise
a pair `STRING ':' value` whose key is new (`keys` collects the keys already
seen in this object), followed by `'}'` or by `','` and the rest. -/
def recObjF : ℕ → List Token → List (List Char) → Option (List Token)
  | 0, _, _ => none
  | _ + 1, [], _ => none
  | fuel + 1, t :: ts, keys =>
    if t = .RBrace then some ts
    else
      match t with
      | .String k =>
        if keys.contains k then none
        else
          if ts.head? = some .Colon then
            match recValF fuel ts.tail with
            | none => none
            | some ts2 =>
              if ts2.head? = some .RBrace then some ts2.tail
              else if ts2.head? = some .Comma then recObjF fuel ts2.tail (keys ++ [k])
              else none
          else none
      | _ => none

/-- Amended-grammar recognizer for the part of an array after `'['` or after
a `','`: a `']'` closes it (this also accepts the trailing comma); otherwise
a value followed by `']'` or by `','` and the rest. -/
def recArrF : ℕ → List Token → Option (List Token)
  | 0, _ => none
  | _ + 1, [] => none
  | fuel + 1, t :: ts =>
    if t = .RSquareBracket then some ts
    else
      match recValF fuel (t :: ts) with
      | none => none
      | some ts2 =>
        if ts2.head? = some .RSquareBracket then some ts2.tail
        else if ts2.head? = some .Comma then recArrF fuel ts2.tail
        else none

end

mutual

/-- Claimed-grammar recognizer for `value`. -/
def recStrictValF : ℕ → List Token → Option (List Token)
  | 0, _ => none
  | _ + 1, [] => none
  | fuel + 1, t :: ts =>
    match t with
    | .LBrace => recStrictObjF fuel ts Bool.true
    | .LSquareBracket => recStrictArrF fuel ts Bool.true
    | .Number _ => some ts
    | .String _ => some ts
    | .True => some ts
    | .False => some ts
    | .Null => some ts
    | _ => none

/-- Claimed-grammar recognizer for the rest of `'{' (pair (',' pair)*)? '}'`:
`mayClose` is true right after the `'{'` (where `'}'` yields the empty
object) and false right after a `','` (where the grammar requires another
pair, so no trailing comma is accepted). -/
def recStrictObjF : ℕ → List Token → Bool → Option (List Token)
  | 0, _, _ => none
  | _ + 1, [], _ => none
  | fuel + 1, t :: ts, mayClose =>
    if t = .RBrace then (if mayClose then some ts else none)
    else
      match t with
      | .String _ =>
        if ts.head? = some .Colon then
          match recStrictValF fuel ts.tail with
          | none => none
          | some ts2 =>
            if ts2.head? = some .RBrace then some ts2.tail
            else if ts2.head? = some .Comma then recStrictObjF fuel ts2.tail Bool.false
            else none
        else none
      | _ => none

/-- Claimed-grammar recognizer for the rest of
`'[' (value (',' value)*)? ']'`, with `mayClose` as in `recStrictObjF`. -/
def recStrictArrF : ℕ → List Token → Bool → Option (List Token)
  | 0, _, _ => none
  | _ + 1, [], _ => none
  | fuel + 1, t :: ts, mayClose =>
    if t = .RSquareBracket then (if mayClose then some ts else none)
    else
      match recStrictValF fuel (t :: ts) with
      | none => none
      | some ts2 =>
        if ts2.head? = some .RSquareBracket then some ts2.tail
        else if ts2.head? = some .Comma then recStrictArrF fuel ts2.tail Bool.false
        else none

end

/-- A full derivation of the amended grammar: one value consuming the whole
sequence. -/
def recTop (l : List Token) : Option (List Token) := recValF (2 * l.length + 1) l

/-- A full derivation of the claimed grammar: one value consuming the whole
sequence. -/
def recStrictTop (l : List Token) : Option (List Token) :=
  recStrictValF (2 * l.length + 1) l

/-! ## The canonical printer (`impl Display for JItem` in `j_item.rs`) -/
/-- Decimal digit characters of `n`, big-endian, with `0` printed as `"0"`
(what Rust's `{}` prints for a nonnegative integer). -/
def renderNat (n : ℕ) : List Char :=
  if n = 0 then ['0'] else ((Nat.digits 10 n).reverse).map digitChr

/-- The fractional digits of a `JNum`: the value `m < 10 ^ e` printed with
exactly `e` digits (left-padded with zeros). -/
def fracChars (m e : ℕ) : List Char :=
  List.replicate (e - (Nat.digits 10 m).length) '0' ++ ((Nat.digits 10 m).reverse).map digitChr

/-- The unsigned part of a number's decimal text: integer digits, and — when
the exponent is positive — a point and exactly `exp` fractional digits. -/
def renderNumCore (q : JNum) : List Char :=
  if q.exp = 0 then renderNat q.num.natAbs
  else
    renderNat (q.num.natAbs / 10 ^ q.exp) ++
      '.' :: fracChars (q.num.natAbs % 10 ^ q.exp) q.exp

/-- Decimal text of the number `num / 10 ^ exp`: sign, then the unsigned
part.  This is the decimal spelling of the stored value; Rust's `{}` on
`f64` prints the shortest decimal that reads back to the same double, which
on the exact-decimal abstraction is the same spelling (up to trailing
zeros, which re-lex to the same value). -/
def renderNum (q : JNum) : List Char :=
  if q.num < 0 then '-' :: renderNumCore q else renderNumCore q

mutual

/-- `j_item.rs`: the `Display` implementation: objects as
`{"k":v,...}` (map iteration order, modelled as insertion order), arrays as
`[v,...]`, strings as the raw text inside one quote pair (no escaping),
numbers in decimal, and the literal words `true`/`false`/`null`. -/
def renderVal : JItem → List Char
  | .Object ps => '{' :: renderPairs ps ++ ['}']
  | .Array items => '[' :: renderItems items ++ [']']
  | .String s => '"' :: s ++ ['"']
  | .Number q => renderNum q
  | .True => "true".data
  | .False => "false".data
  | .Null => "null".data

/-- `fmt_j_object`'s comma-joined `"key":value` renderings. -/
def renderPairs : List (List Char × JItem) → List Char
  | [] => []
  | [(k, v)] => '"' :: k ++ '"' :: ':' :: renderVal v
  | (k, v) :: rest => '"' :: k ++ '"' :: ':' :: renderVal v ++ ',' :: renderPairs rest

/-- `fmt_j_array`'s comma-joined element renderings. -/
def renderItems : List JItem → List Char
  | [] => []
  | [v] => renderVal v
  | v :: rest => renderVal v ++ ',' :: renderItems rest

end

/-- Prepend already-produced tokens to the outcome of lexing the rest. -/
def lexPrepend (pre : List Token) : LexRes (List Token) → LexRes (List Token)
  | .ok ts => .ok (pre ++ ts)
  | .err e => .err e
  | .panic => .panic

/-- Forget the parsed value and the error distinctions: just which suffix a
successful parse leaves. -/
def toRest : Except PErr (JItem × List Token) → Option (List Token)
  | .ok (_, r) => some r
  | .error _ => none

/-! ## Key uniqueness of parsed objects -/
/-- No key occurs twice (each key is absent from the keys after it). -/
def nodupKeys : List (List Char) → Bool
  | [] => true
  | k :: ks => !(ks.contains k) && nodupKeys ks

mutual

/-- Every object anywhere in the value has pairwise-distinct keys. -/
def keysOk : JItem → Bool
  | .Object ps => nodupKeys (ps.map Prod.fst) && keysOkPairs ps
  | .Array l => keysOkItems l
  | .String _ => true
  | .Number _ => true
  | .True => true
  | .False => true
  | .Null => true

/-- `keysOk` for every value of an object's pair list. -/
def keysOkPairs : List (List Char × JItem) → Bool
  | [] => true
  | kv :: rest => keysOk kv.2 && keysOkPairs rest

/-- `keysOk` for every element of an array's list. -/
def keysOkItems : List JItem → Bool
  | [] => true
  | v :: rest => keysOk v && keysOkItems rest

end

/-! ## String-literal lexing (claim C7) -/
mutual

/-- The character list contains no unescaped `'"'`: scanning it, a backslash
skips the next character (`noCloseQuoteEsc`), and no bare `'"'` is ever
met — so `lexStrGo` reaches the end of input. -/
def noCloseQuote : List Char → Bool
  | [] => true
  | c :: cs =>
    if c = '\\' then noCloseQuoteEsc cs
    else if c = '"' then false
    else noCloseQuote cs

/-- State after a backslash: the next character is skipped. -/
def noCloseQuoteEsc : List Char → Bool
  | [] => true
  | _ :: cs => noCloseQuote cs

end

/-- Characters that may legally follow a rendered value inside a rendered
document: a separator, a closing bracket, a closing brace, or nothing. -/
def boundaryB : List Char → Bool
  | [] => true
  | c :: _ => c = ',' || c = ']' || c = '}'

/-- The string payload contains neither `'"'` nor `'\\'`. -/
def cleanStr (s : List Char) : Bool := s.all (fun c => !(c = '"' || c = '\\'))

mutual

/-- Every string payload and object key in the value is `cleanStr` (no
quote, no backslash) — the condition under which the printer's unescaped
string output re-lexes to the same token. -/
def cleanVal : JItem → Bool
  | .Object ps => cleanPairs ps
  | .Array l => cleanItems l
  | .String s => cleanStr s
  | .Number _ => true
  | .True => true
  | .False => true
  | .Null => true

/-- `cleanVal` for an object's pair list, keys included. -/
def cleanPairs : List (List Char × JItem) → Bool
  | [] => true
  | (k, v) :: rest => cleanStr k && cleanVal v && cleanPairs rest

/-- `cleanVal` for an array's element list. -/
def cleanItems : List JItem → Bool
  | [] => true
  | v :: rest => cleanVal v && cleanItems rest

end

mutual

/-- The token sequence the lexer recovers from a rendered value. -/
def tokensOf : JItem → List Token
  | .Object ps => .LBrace :: tokensOfPairs ps ++ [.RBrace]
  | .Array l => .LSquareBracket :: tokensOfItems l ++ [.RSquareBracket]
  | .String s => [.String s]
  | .Number q => [.Number q]
  | .True => [.True]
  | .False => [.False]
  | .Null => [.Null]

/-- Tokens of an object's comma-joined `"key":value` renderings. -/
def tokensOfPairs : List (List Char × JItem) → List Token
  | [] => []
  | [(k, v)] => .String k :: .Colon :: tokensOf v
  | (k, v) :: rest => .String k :: .Colon :: tokensOf v ++ .Comma :: tokensOfPairs rest

/-- Tokens of an array's comma-joined element renderings. -/
def tokensOfItems : List JItem → List Token
  | [] => []
  | [v] => tokensOf v
  | v :: rest => tokensOf v ++ .Comma :: tokensOfItems rest

end

/-- The parser error's message text names the token kind that was expected
(`"Expected {:?} but got …"` / `"expected string key for jobject but got
{:?}"`). -/
def namesExpected : PErr → Bool
  | .expectMismatch _ _ => true
  | .expectEof _ => true
  | .expectedStringKey _ => true
  | _ => false

/-- The parser error's message text names the token actually found, or states
that EOF was found. -/
def namesFound : PErr → Bool
  | .expectMismatch _ _ => true
  | .expectEof _ => true
  | .expectedStringKey _ => true
  | .unexpectedToken _ => true
  | .eofItem => true
  | .eofLoop => true
  | _ => false

/-! ### Theorems -/

/-- Induction over `JItem` that hands the inductive hypothesis to every
member of the nested lists. -/
theorem JItem.inductionNested (P : JItem → Prop)
    (hobj : ∀ ps, (∀ kv, kv ∈ ps → P kv.2) → P (JItem.Object ps))
    (hstr : ∀ s, P (JItem.String s))
    (harr : ∀ l, (∀ x, x ∈ l → P x) → P (JItem.Array l))
    (hnum : ∀ q, P (JItem.Number q))
    (htru : P JItem.True) (hfls : P JItem.False) (hnul : P JItem.Null) :
    ∀ v, P v
  | .Object ps => hobj ps (fun kv hkv =>
      JItem.inductionNested P hobj hstr harr hnum htru hfls hnul kv.2)
  | .String s => hstr s
  | .Array l => harr l (fun x hx =>
      JItem.inductionNested P hobj hstr harr hnum htru hfls hnul x)
  | .Number q => hnum q
  | .True => htru
  | .False => hfls
  | .Null => hnul
termination_by v => sizeOf v
decreasing_by
  · obtain ⟨a, b⟩ := kv
    have h1 := List.sizeOf_lt_of_mem hkv
    simp only [Prod.mk.sizeOf_spec] at h1 ⊢
    simp [JItem.Object.sizeOf_spec]
    omega
  · have h1 := List.sizeOf_lt_of_mem hx
    simp [JItem.Array.sizeOf_spec]
    omega

/-! ## Lexer: fuel elimination -/
theorem lexNumGo_rest_length : ∀ (l : List Char) (b : Bool) (acc built rest : List Char),
    lexNumGo l b acc = .ok (built, rest) → rest.length ≤ l.length := by
  intro l
  induction l with
  | nil => intro b acc built rest h; simp [lexNumGo] at h; simp [h.2.symm]
  | cons c cs ih =>
    intro b acc built rest h
    simp only [lexNumGo] at h
    split at h
    · exact Nat.le_succ_of_le (ih _ _ _ _ h)
    · split at h
      · split at h
        · exact absurd h (by simp)
        · exact Nat.le_succ_of_le (ih _ _ _ _ h)
      · simp at h
        simp [h.2.symm]

theorem lexStrGo_rest_length : ∀ (l : List Char) (b : Bool) (acc built rest : List Char),
    lexStrGo l b acc = .ok (built, rest) → rest.length ≤ l.length := by
  intro l
  induction l with
  | nil => intro b acc built rest h; simp [lexStrGo] at h
  | cons c cs ih =>
    intro b acc built rest h
    cases b with
    | true => exact Nat.le_succ_of_le (ih _ _ _ _ h)
    | false =>
      simp only [lexStrGo] at h
      split at h
      · exact Nat.le_succ_of_le (ih _ _ _ _ h)
      · split at h
        · simp at h; simp [h.2.symm]
        · exact Nat.le_succ_of_le (ih _ _ _ _ h)

theorem lexIdentGo_rest_length : ∀ (l acc : List Char),
    (lexIdentGo l acc).2.length ≤ l.length := by
  intro l
  induction l with
  | nil => intro acc; simp [lexIdentGo]
  | cons c cs ih =>
    intro acc
    simp only [lexIdentGo]
    split
    · exact Nat.le_succ_of_le (ih _)
    · simp

theorem lex_number_rest_length {l : List Char} {c : Char} {t : Token} {rest : List Char}
    (h : lex_number l c = .ok (t, rest)) : rest.length ≤ l.length := by
  unfold lex_number at h
  split at h
  · rename_i built r heq
    split at h
    · simp at h
      exact h.2 ▸ lexNumGo_rest_length _ _ _ _ _ heq
    · exact absurd h (by simp)
  · exact absurd h (by simp)
  · exact absurd h (by simp)

theorem lex_string_rest_length {l : List Char} {t : Token} {rest : List Char}
    (h : lex_string l = .ok (t, rest)) : rest.length ≤ l.length := by
  unfold lex_string at h
  split at h
  · rename_i s r heq
    simp at h
    exact h.2 ▸ lexStrGo_rest_length _ _ _ _ _ heq
  · exact absurd h (by simp)
  · exact absurd h (by simp)

theorem lex_ident_rest_length {l : List Char} {c : Char} {t : Token} {rest : List Char}
    (h : lex_ident l c = .ok (t, rest)) : rest.length ≤ l.length := by
  simp only [lex_ident] at h
  have hr := lexIdentGo_rest_length l [c]
  split at h
  · simp at h; exact h.2 ▸ hr
  · split at h
    · simp at h; exact h.2 ▸ hr
    · split at h
      · simp at h; exact h.2 ▸ hr
      · exact absurd h (by simp)

theorem lexDispatch_rest_length {c : Char} {cs : List Char} {t : Token} {rest : List Char}
    (h : lexDispatch c cs = .ok (t, rest)) : rest.length ≤ cs.length := by
  unfold lexDispatch at h
  repeat' split at h
  all_goals first
    | (exact lex_number_rest_length h)
    | (exact lex_string_rest_length h)
    | (exact lex_ident_rest_length h)
    | (simp at h; exact h.2 ▸ Nat.le_refl _)
    | exact absurd h (by simp)

theorem lexLoopF_irrel : ∀ (f1 f2 : ℕ) (l : List Char), l.length < f1 → l.length < f2 →
    lexLoopF f1 l = lexLoopF f2 l := by
  intro f1
  induction f1 with
  | zero => intro f2 l h1; omega
  | succ a ih =>
    intro f2 l h1 h2
    cases l with
    | nil => cases f2 <;> simp [lexLoopF]
    | cons c cs =>
      cases f2 with
      | zero => omega
      | succ b =>
        simp only [lexLoopF]
        split
        · exact ih b cs (by simpa using h1) (by simpa using h2)
        · cases hd : lexDispatch c cs with
          | ok p =>
            obtain ⟨t, rest⟩ := p
            have hr := lexDispatch_rest_length hd
            have he : lexLoopF a rest = lexLoopF b rest :=
              ih b rest (by simp at h1; omega) (by simp at h2; omega)
            simp [he]
          | err e => rfl
          | panic => rfl

/-- One step of `lexText`: the loop body, with the fuel eliminated. -/
theorem lexText_cons (c : Char) (cs : List Char) :
    lexText (c :: cs) =
      if isWsChar c then lexText cs
      else
        match lexDispatch c cs with
        | .ok (t, rest) => lexPrepend [t] (lexText rest)
        | .err e => .err e
        | .panic => .panic := by
  simp only [lexText, List.length_cons, lexLoopF]
  split
  · rfl
  · cases hd : lexDispatch c cs with
    | ok p =>
      obtain ⟨t, rest⟩ := p
      have hr := lexDispatch_rest_length hd
      have he : lexLoopF (cs.length + 1) rest = lexLoopF (rest.length + 1) rest :=
        lexLoopF_irrel _ _ rest (by omega) (by omega)
      simp only [he]
      cases hl : lexLoopF (rest.length + 1) rest <;> simp [lexPrepend]
    | err e => rfl
    | panic => rfl

/-! ## Parser: stream consumption and fuel elimination -/
theorem expect_token_ok {l : List Token} {e : Token} {r : List Token}
    (h : expect_token l e = .ok r) : ∃ t, l = t :: r ∧ sameKind t e = true := by
  cases l with
  | nil => simp [expect_token] at h
  | cons t ts =>
    simp only [expect_token] at h
    split at h
    · simp at h
      exact ⟨t, by simp [h], by assumption⟩
    · exact absurd h (by simp)

theorem parse_consumes : ∀ fuel : ℕ,
    (∀ l v r, parse_jitemF fuel l = .ok (v, r) → r.length < l.length) ∧
    (∀ l acc v r, parse_jobjectF fuel l acc = .ok (v, r) → r.length < l.length) ∧
    (∀ l acc v r, parse_jarrayF fuel l acc = .ok (v, r) → r.length < l.length) := by
  intro fuel
  induction fuel with
  | zero =>
    refine ⟨?_, ?_, ?_⟩
    · intro l v r h; simp [parse_jitemF] at h
    · intro l acc v r h; simp [parse_jobjectF] at h
    · intro l acc v r h; simp [parse_jarrayF] at h
  | succ f ih =>
    obtain ⟨ih1, ih2, ih3⟩ := ih
    refine ⟨?_, ?_, ?_⟩
    · intro l v r h
      cases l with
      | nil => simp [parse_jitemF] at h
      | cons t ts =>
        cases t <;> simp only [parse_jitemF] at h
        case LBrace =>
          have := ih2 ts [] v r h
          simp only [List.length_cons]
          omega
        case LSquareBracket =>
          have := ih3 ts [] v r h
          simp only [List.length_cons]
          omega
        all_goals simp at h
        all_goals
          obtain ⟨h1, h2⟩ := h
          subst h2
          simp only [List.length_cons]
          omega
    · intro l acc v r h
      cases l with
      | nil => simp [parse_jobjectF] at h
      | cons t ts =>
        simp only [parse_jobjectF] at h
        by_cases hrb : t = Token.RBrace
        · rw [if_pos hrb] at h
          simp at h
          obtain ⟨h1, h2⟩ := h
          subst h2
          simp
        · rw [if_neg hrb] at h
          cases t with
          | LBrace => simp at h
          | RBrace => simp at h
          | LSquareBracket => simp at h
          | RSquareBracket => simp at h
          | Colon => simp at h
          | Comma => simp at h
          | Number q => simp at h
          | True => simp at h
          | False => simp at h
          | Null => simp at h
          | String key =>
            simp only [] at h
            by_cases hc : (acc.map Prod.fst).contains key = true
            · rw [if_pos hc] at h; simp at h
            · rw [if_neg hc] at h
              cases hcolon : expect_token ts Token.Colon with
              | error e => rw [hcolon] at h; simp at h
              | ok ts1 =>
                rw [hcolon] at h
                simp only [] at h
                obtain ⟨tc, hts, hkc⟩ := expect_token_ok hcolon
                cases hitem : parse_jitemF f ts1 with
                | error e => rw [hitem] at h; simp at h
                | ok vts =>
                  rw [hitem] at h
                  obtain ⟨v1, ts2⟩ := vts
                  have hlen2 := ih1 ts1 v1 ts2 hitem
                  simp only [] at h
                  by_cases hh : ts2.head? = some Token.RBrace
                  · rw [if_pos hh] at h
                    simp at h
                    obtain ⟨h1, h2⟩ := h
                    subst hts
                    have htl : ts2.tail.length ≤ ts2.length := by
                      cases ts2 <;> simp
                    rw [← h2]
                    simp only [List.length_cons]
                    omega
                  · rw [if_neg hh] at h
                    cases hcomma : expect_token ts2 Token.Comma with
                    | error e => rw [hcomma] at h; simp at h
                    | ok ts3 =>
                      rw [hcomma] at h
                      simp only [] at h
                      obtain ⟨tc2, hts2, hkc2⟩ := expect_token_ok hcomma
                      have hr3 := ih2 ts3 (acc ++ [(key, v1)]) v r h
                      subst hts
                      subst hts2
                      simp only [List.length_cons] at hlen2 hr3 ⊢
                      omega
    · intro l acc v r h
      cases l with
      | nil => simp [parse_jarrayF] at h
      | cons t ts =>
        simp only [parse_jarrayF] at h
        by_cases hrb : t = Token.RSquareBracket
        · rw [if_pos hrb] at h
          simp at h
          obtain ⟨h1, h2⟩ := h
          subst h2
          simp
        · rw [if_neg hrb] at h
          cases hitem : parse_jitemF f (t :: ts) with
          | error e => rw [hitem] at h; simp at h
          | ok vts =>
            rw [hitem] at h
            obtain ⟨v1, ts2⟩ := vts
            have hlen2 := ih1 (t :: ts) v1 ts2 hitem
            simp only [] at h
            by_cases hh : ts2.head? = some Token.RSquareBracket
            · rw [if_pos hh] at h
              simp at h
              obtain ⟨h1, h2⟩ := h
              have htl : ts2.tail.length ≤ ts2.length := by
                cases ts2 <;> simp
              rw [← h2]
              simp only [List.length_cons] at hlen2 ⊢
              omega
            · rw [if_neg hh] at h
              cases hcomma : expect_token ts2 Token.Comma with
              | error e => rw [hcomma] at h; simp at h
              | ok ts3 =>
                rw [hcomma] at h
                simp only [] at h
                obtain ⟨tc2, hts2, hkc2⟩ := expect_token_ok hcomma
                have hr3 := ih3 ts3 (acc ++ [v1]) v r h
                subst hts2
                simp only [List.length_cons] at hlen2 hr3 ⊢
                omega

theorem expect_colon_ok {l r : List Token} :
    expect_token l .Colon = .ok r ↔ l = .Colon :: r := by
  cases l with
  | nil => simp [expect_token]
  | cons t ts =>
    simp only [expect_token]
    cases t <;> simp [sameKind]

theorem expect_comma_ok {l r : List Token} :
    expect_token l .Comma = .ok r ↔ l = .Comma :: r := by
  cases l with
  | nil => simp [expect_token]
  | cons t ts =>
    simp only [expect_token]
    cases t <;> simp [sameKind]

theorem parse_jitemF_ok_inv {f : ℕ} {l : List Token} {v : JItem} {r : List Token}
    (h : parse_jitemF f l = .ok (v, r)) :
    ∃ f', f = f' + 1 ∧
      ((∃ ts, l = .LBrace :: ts ∧ parse_jobjectF f' ts [] = .ok (v, r)) ∨
       (∃ ts, l = .LSquareBracket :: ts ∧ parse_jarrayF f' ts [] = .ok (v, r)) ∨
       (∃ q, l = .Number q :: r ∧ v = .Number q) ∨
       (∃ s, l = .String s :: r ∧ v = .String s) ∨
       (l = .True :: r ∧ v = .True) ∨
       (l = .False :: r ∧ v = .False) ∨
       (l = .Null :: r ∧ v = .Null)) := by
  cases f with
  | zero => simp [parse_jitemF] at h
  | succ f' =>
    refine ⟨f', rfl, ?_⟩
    cases l with
    | nil => simp [parse_jitemF] at h
    | cons t ts =>
      cases t <;> simp only [parse_jitemF] at h <;>
        [skip; simp at h; skip; simp at h; simp at h; simp at h; skip; skip; skip; skip; skip]
      case LBrace => exact Or.inl ⟨ts, rfl, h⟩
      case LSquareBracket => exact Or.inr (Or.inl ⟨ts, rfl, h⟩)
      case Number q =>
        simp at h
        exact Or.inr (Or.inr (Or.inl ⟨q, by rw [h.2], h.1.symm⟩))
      case String s =>
        simp at h
        exact Or.inr (Or.inr (Or.inr (Or.inl ⟨s, by rw [h.2], h.1.symm⟩)))
      case True =>
        simp at h
        exact Or.inr (Or.inr (Or.inr (Or.inr (Or.inl ⟨by rw [h.2], h.1.symm⟩))))
      case False =>
        simp at h
        exact Or.inr (Or.inr (Or.inr (Or.inr (Or.inr (Or.inl ⟨by rw [h.2], h.1.symm⟩)))))
      case Null =>
        simp at h
        exact Or.inr (Or.inr (Or.inr (Or.inr (Or.inr (Or.inr ⟨by rw [h.2], h.1.symm⟩)))))

theorem parse_jobjectF_ok_inv {f : ℕ} {l : List Token} {acc : List (List Char × JItem)}
    {v : JItem} {r : List Token} (h : parse_jobjectF f l acc = .ok (v, r)) :
    ∃ f', f = f' + 1 ∧
      ((l = .RBrace :: r ∧ v = .Object acc) ∨
       (∃ key ts1 v1 ts2, l = .String key :: .Colon :: ts1 ∧
          (acc.map Prod.fst).contains key = false ∧
          parse_jitemF f' ts1 = .ok (v1, ts2) ∧
          ((∃ ts3, ts2 = .RBrace :: ts3 ∧ v = .Object (acc ++ [(key, v1)]) ∧ r = ts3) ∨
           (∃ ts3, ts2 = .Comma :: ts3 ∧
              parse_jobjectF f' ts3 (acc ++ [(key, v1)]) = .ok (v, r))))) := by
  cases f with
  | zero => simp [parse_jobjectF] at h
  | succ f' =>
    refine ⟨f', rfl, ?_⟩
    cases l with
    | nil => simp [parse_jobjectF] at h
    | cons t ts =>
      simp only [parse_jobjectF] at h
      by_cases hrb : t = Token.RBrace
      · rw [if_pos hrb] at h
        simp at h
        exact Or.inl ⟨by rw [hrb, h.2], h.1.symm⟩
      · rw [if_neg hrb] at h
        cases t with
        | LBrace => simp at h
        | RBrace => simp at h
        | LSquareBracket => simp at h
        | RSquareBracket => simp at h
        | Colon => simp at h
        | Comma => simp at h
        | Number q => simp at h
        | True => simp at h
        | False => simp at h
        | Null => simp at h
        | String key =>
          simp only [] at h
          by_cases hc : (acc.map Prod.fst).contains key = true
          · rw [if_pos hc] at h; simp at h
          · rw [if_neg hc] at h
            cases hcolon : expect_token ts Token.Colon with
            | error e => rw [hcolon] at h; simp at h
            | ok ts1 =>
              rw [hcolon] at h
              simp only [] at h
              rw [expect_colon_ok] at hcolon
              subst hcolon
              cases hitem : parse_jitemF f' ts1 with
              | error e => rw [hitem] at h; simp at h
              | ok vts =>
                rw [hitem] at h
                obtain ⟨v1, ts2⟩ := vts
                simp only [] at h
                have hc' : (acc.map Prod.fst).contains key = false := by
                  cases hcc : (acc.map Prod.fst).contains key
                  · rfl
                  · exact absurd hcc hc
                refine Or.inr ⟨key, ts1, v1, ts2, rfl, hc', hitem, ?_⟩
                by_cases hh : ts2.head? = some Token.RBrace
                · rw [if_pos hh] at h
                  simp at h
                  cases ts2 with
                  | nil => simp at hh
                  | cons t2 tl2 =>
                    simp at hh
                    subst hh
                    have hr : tl2 = r := by simpa using h.2
                    exact Or.inl ⟨tl2, rfl, h.1.symm, hr.symm⟩
                · rw [if_neg hh] at h
                  cases hcomma : expect_token ts2 Token.Comma with
                  | error e => rw [hcomma] at h; simp at h
                  | ok ts3 =>
                    rw [hcomma] at h
                    simp only [] at h
                    rw [expect_comma_ok] at hcomma
                    subst hcomma
                    exact Or.inr ⟨ts3, rfl, h⟩

theorem parse_jarrayF_ok_inv {f : ℕ} {l : List Token} {acc : List JItem}
    {v : JItem} {r : List Token} (h : parse_jarrayF f l acc = .ok (v, r)) :
    ∃ f', f = f' + 1 ∧
      ((l = .RSquareBracket :: r ∧ v = .Array acc) ∨
       (∃ t ts v1 ts2, l = t :: ts ∧ t ≠ .RSquareBracket ∧
          parse_jitemF f' (t :: ts) = .ok (v1, ts2) ∧
          ((∃ ts3, ts2 = .RSquareBracket :: ts3 ∧ v = .Array (acc ++ [v1]) ∧ r = ts3) ∨
           (∃ ts3, ts2 = .Comma :: ts3 ∧
              parse_jarrayF f' ts3 (acc ++ [v1]) = .ok (v, r))))) := by
  cases f with
  | zero => simp [parse_jarrayF] at h
  | succ f' =>
    refine ⟨f', rfl, ?_⟩
    cases l with
    | nil => simp [parse_jarrayF] at h
    | cons t ts =>
      simp only [parse_jarrayF] at h
      by_cases hrb : t = Token.RSquareBracket
      · rw [if_pos hrb] at h
        simp at h
        exact Or.inl ⟨by rw [hrb, h.2], h.1.symm⟩
      · rw [if_neg hrb] at h
        cases hitem : parse_jitemF f' (t :: ts) with
        | error e => rw [hitem] at h; simp at h
        | ok vts =>
          rw [hitem] at h
          obtain ⟨v1, ts2⟩ := vts
          simp only [] at h
          refine Or.inr ⟨t, ts, v1, ts2, rfl, hrb, hitem, ?_⟩
          by_cases hh : ts2.head? = some Token.RSquareBracket
          · rw [if_pos hh] at h
            simp at h
            cases ts2 with
            | nil => simp at hh
            | cons t2 tl2 =>
              simp at hh
              subst hh
              have hr : tl2 = r := by simpa using h.2
              exact Or.inl ⟨tl2, rfl, h.1.symm, hr.symm⟩
          · rw [if_neg hh] at h
            cases hcomma : expect_token ts2 Token.Comma with
            | error e => rw [hcomma] at h; simp at h
            | ok ts3 =>
              rw [hcomma] at h
              simp only [] at h
              rw [expect_comma_ok] at hcomma
              subst hcomma
              exact Or.inr ⟨ts3, rfl, h⟩

theorem parse_jobjectF_close_step {f : ℕ} {ts : List Token} {acc : List (List Char × JItem)} :
    parse_jobjectF (f + 1) (.RBrace :: ts) acc = .ok (.Object acc, ts) := by
  simp [parse_jobjectF]

theorem parse_jobjectF_pair_step {f : ℕ} {key : List Char} {ts1 : List Token}
    {acc : List (List Char × JItem)} (hc : (acc.map Prod.fst).contains key = false) :
    parse_jobjectF (f + 1) (.String key :: .Colon :: ts1) acc =
      match parse_jitemF f ts1 with
      | .error e => .error e
      | .ok (v1, ts2) =>
        if ts2.head? = some .RBrace then .ok (.Object (acc ++ [(key, v1)]), ts2.tail)
        else
          match expect_token ts2 .Comma with
          | .error e => .error e
          | .ok ts3 => parse_jobjectF f ts3 (acc ++ [(key, v1)]) := by
  have h0 : parse_jobjectF (f + 1) (.String key :: .Colon :: ts1) acc =
      if (acc.map Prod.fst).contains key = true then .error (.duplicateKey key)
      else
        match parse_jitemF f ts1 with
        | .error e => .error e
        | .ok (v1, ts2) =>
          if ts2.head? = some .RBrace then .ok (.Object (acc ++ [(key, v1)]), ts2.tail)
          else
            match expect_token ts2 .Comma with
            | .error e => .error e
            | .ok ts3 => parse_jobjectF f ts3 (acc ++ [(key, v1)]) := rfl
  rw [h0, hc]
  rw [if_neg (by simp : ¬(false = true))]

theorem parse_jarrayF_close_step {f : ℕ} {ts : List Token} {acc : List JItem} :
    parse_jarrayF (f + 1) (.RSquareBracket :: ts) acc = .ok (.Array acc, ts) := by
  simp [parse_jarrayF]

theorem parse_jarrayF_cons_step {f : ℕ} {t : Token} {ts : List Token} {acc : List JItem}
    (hne : t ≠ .RSquareBracket) :
    parse_jarrayF (f + 1) (t :: ts) acc =
      match parse_jitemF f (t :: ts) with
      | .error e => .error e
      | .ok (v1, ts2) =>
        if ts2.head? = some .RSquareBracket then .ok (.Array (acc ++ [v1]), ts2.tail)
        else
          match expect_token ts2 .Comma with
          | .error e => .error e
          | .ok ts3 => parse_jarrayF f ts3 (acc ++ [v1]) := by
  simp only [parse_jarrayF]
  rw [if_neg hne]

theorem parse_ok_mono : ∀ f : ℕ,
    (∀ g l v r, f ≤ g → parse_jitemF f l = .ok (v, r) → parse_jitemF g l = .ok (v, r)) ∧
    (∀ g l acc v r, f ≤ g → parse_jobjectF f l acc = .ok (v, r) →
      parse_jobjectF g l acc = .ok (v, r)) ∧
    (∀ g l acc v r, f ≤ g → parse_jarrayF f l acc = .ok (v, r) →
      parse_jarrayF g l acc = .ok (v, r)) := by
  intro f
  induction f with
  | zero =>
    refine ⟨?_, ?_, ?_⟩
    · intro g l v r _ h; simp [parse_jitemF] at h
    · intro g l acc v r _ h; simp [parse_jobjectF] at h
    · intro g l acc v r _ h; simp [parse_jarrayF] at h
  | succ f ih =>
    obtain ⟨ih1, ih2, ih3⟩ := ih
    refine ⟨?_, ?_, ?_⟩
    · intro g l v r hg h
      obtain ⟨f', hf, hcases⟩ := parse_jitemF_ok_inv h
      have hf' : f = f' := by omega
      subst hf'
      cases g with
      | zero => omega
      | succ g' =>
        have hg' : f ≤ g' := by omega
        rcases hcases with ⟨ts, rfl, hobj⟩ | ⟨ts, rfl, harr⟩ | ⟨q, rfl, rfl⟩ |
          ⟨s, rfl, rfl⟩ | ⟨rfl, rfl⟩ | ⟨rfl, rfl⟩ | ⟨rfl, rfl⟩
        · simp only [parse_jitemF]
          exact ih2 g' ts [] v r hg' hobj
        · simp only [parse_jitemF]
          exact ih3 g' ts [] v r hg' harr
        all_goals simp [parse_jitemF]
    · intro g l acc v r hg h
      obtain ⟨f', hf, hcases⟩ := parse_jobjectF_ok_inv h
      have hf' : f = f' := by omega
      subst hf'
      cases g with
      | zero => omega
      | succ g' =>
        have hg' : f ≤ g' := by omega
        rcases hcases with ⟨rfl, rfl⟩ | ⟨key, ts1, v1, ts2, rfl, hc, hit, hcont⟩
        · exact parse_jobjectF_close_step
        · have hit' := ih1 g' ts1 v1 ts2 hg' hit
          rcases hcont with ⟨ts3, rfl, rfl, rfl⟩ | ⟨ts3, rfl, hrec⟩
          · rw [parse_jobjectF_pair_step hc, hit']
            simp
          · have hrec' := ih2 g' ts3 (acc ++ [(key, v1)]) v r hg' hrec
            rw [parse_jobjectF_pair_step hc, hit']
            simp [expect_token, sameKind, hrec']
    · intro g l acc v r hg h
      obtain ⟨f', hf, hcases⟩ := parse_jarrayF_ok_inv h
      have hf' : f = f' := by omega
      subst hf'
      cases g with
      | zero => omega
      | succ g' =>
        have hg' : f ≤ g' := by omega
        rcases hcases with ⟨rfl, rfl⟩ | ⟨t, ts, v1, ts2, rfl, hne, hit, hcont⟩
        · exact parse_jarrayF_close_step
        · have hit' := ih1 g' (t :: ts) v1 ts2 hg' hit
          rcases hcont with ⟨ts3, rfl, rfl, rfl⟩ | ⟨ts3, rfl, hrec⟩
          · rw [parse_jarrayF_cons_step hne, hit']
            simp
          · have hrec' := ih3 g' ts3 (acc ++ [v1]) v r hg' hrec
            rw [parse_jarrayF_cons_step hne, hit']
            simp [expect_token, sameKind, hrec']

theorem parse_extend : ∀ f : ℕ,
    (∀ l v r e, parse_jitemF f l = .ok (v, r) →
      parse_jitemF f (l ++ e) = .ok (v, r ++ e)) ∧
    (∀ l acc v r e, parse_jobjectF f l acc = .ok (v, r) →
      parse_jobjectF f (l ++ e) acc = .ok (v, r ++ e)) ∧
    (∀ l acc v r e, parse_jarrayF f l acc = .ok (v, r) →
      parse_jarrayF f (l ++ e) acc = .ok (v, r ++ e)) := by
  intro f
  induction f with
  | zero =>
    refine ⟨?_, ?_, ?_⟩
    · intro l v r e h; simp [parse_jitemF] at h
    · intro l acc v r e h; simp [parse_jobjectF] at h
    · intro l acc v r e h; simp [parse_jarrayF] at h
  | succ f ih =>
    obtain ⟨ih1, ih2, ih3⟩ := ih
    refine ⟨?_, ?_, ?_⟩
    · intro l v r e h
      obtain ⟨f', hf, hcases⟩ := parse_jitemF_ok_inv h
      have hf' : f = f' := by omega
      subst hf'
      rcases hcases with ⟨ts, rfl, hobj⟩ | ⟨ts, rfl, harr⟩ | ⟨q, rfl, rfl⟩ |
        ⟨s, rfl, rfl⟩ | ⟨rfl, rfl⟩ | ⟨rfl, rfl⟩ | ⟨rfl, rfl⟩
      · simpa only [List.cons_append, parse_jitemF] using ih2 ts [] v r e hobj
      · simpa only [List.cons_append, parse_jitemF] using ih3 ts [] v r e harr
      all_goals simp [parse_jitemF]
    · intro l acc v r e h
      obtain ⟨f', hf, hcases⟩ := parse_jobjectF_ok_inv h
      have hf' : f = f' := by omega
      subst hf'
      rcases hcases with ⟨rfl, rfl⟩ | ⟨key, ts1, v1, ts2, rfl, hc, hit, hcont⟩
      · simpa only [List.cons_append] using parse_jobjectF_close_step
      · have hit' := ih1 ts1 v1 ts2 e hit
        rcases hcont with ⟨ts3, rfl, rfl, rfl⟩ | ⟨ts3, rfl, hrec⟩
        · simp only [List.cons_append]
          rw [parse_jobjectF_pair_step hc, hit']
          simp
        · have hrec' := ih2 ts3 (acc ++ [(key, v1)]) v r e hrec
          simp only [List.cons_append]
          rw [parse_jobjectF_pair_step hc, hit']
          simp [expect_token, sameKind, hrec']
    · intro l acc v r e h
      obtain ⟨f', hf, hcases⟩ := parse_jarrayF_ok_inv h
      have hf' : f = f' := by omega
      subst hf'
      rcases hcases with ⟨rfl, rfl⟩ | ⟨t, ts, v1, ts2, rfl, hne, hit, hcont⟩
      · simpa only [List.cons_append] using parse_jarrayF_close_step
      · have hit' := ih1 (t :: ts) v1 ts2 e hit
        rcases hcont with ⟨ts3, rfl, rfl, rfl⟩ | ⟨ts3, rfl, hrec⟩
        · simp only [List.cons_append]
          rw [parse_jarrayF_cons_step hne]
          rw [List.cons_append] at hit'
          rw [hit']
          simp
        · have hrec' := ih3 ts3 (acc ++ [v1]) v r e hrec
          simp only [List.cons_append]
          rw [parse_jarrayF_cons_step hne]
          rw [List.cons_append] at hit'
          rw [hit']
          simp [expect_token, sameKind, hrec']

theorem parse_tokens_ok_iff {l : List Token} {v : JItem} :
    parse_tokens l = .ok v ↔ parse_jitemF (2 * l.length + 1) l = .ok (v, []) := by
  constructor
  · intro h
    unfold parse_tokens at h
    cases hp : parse_jitemF (2 * l.length + 1) l with
    | error e => rw [hp] at h; simp at h
    | ok vr =>
      rw [hp] at h
      obtain ⟨v', r⟩ := vr
      cases r with
      | nil => simp at h; subst h; rfl
      | cons a b => simp at h
  · intro h
    unfold parse_tokens
    rw [h]

theorem parse_tokens_append {l : List Token} {v : JItem} {e : List Token}
    (h : parse_tokens l = .ok v) (he : e ≠ []) :
    parse_tokens (l ++ e) = .error .tokensLeft := by
  rw [parse_tokens_ok_iff] at h
  have hmono := (parse_ok_mono (2 * l.length + 1)).1 (2 * (l ++ e).length + 1) l v []
    (by rw [List.length_append]; omega) h
  have hext := (parse_extend (2 * (l ++ e).length + 1)).1 l v [] e hmono
  rw [List.nil_append] at hext
  unfold parse_tokens
  rw [hext]
  cases e with
  | nil => exact absurd rfl he
  | cons a b => rfl

theorem toRest_eq_some {x : Except PErr (JItem × List Token)} {r : List Token}
    (h : toRest x = some r) : ∃ v, x = .ok (v, r) := by
  cases x with
  | ok vr => obtain ⟨v, r'⟩ := vr; simp [toRest] at h; exact ⟨v, by rw [h]⟩
  | error e => simp [toRest] at h

theorem parser_rec_agree : ∀ f : ℕ,
    (∀ l, toRest (parse_jitemF f l) = recValF f l) ∧
    (∀ l acc, toRest (parse_jobjectF f l acc) = recObjF f l (acc.map Prod.fst)) ∧
    (∀ l acc, toRest (parse_jarrayF f l acc) = recArrF f l) := by
  intro f
  induction f with
  | zero =>
    refine ⟨?_, ?_, ?_⟩
    · intro l; simp [parse_jitemF, recValF, toRest]
    · intro l acc; simp [parse_jobjectF, recObjF, toRest]
    · intro l acc; simp [parse_jarrayF, recArrF, toRest]
  | succ f ih =>
    obtain ⟨ih1, ih2, ih3⟩ := ih
    refine ⟨?_, ?_, ?_⟩
    · intro l
      cases l with
      | nil => simp [parse_jitemF, recValF, toRest]
      | cons t ts =>
        cases t with
        | LBrace =>
          simp only [parse_jitemF, recValF]
          simpa using ih2 ts []
        | LSquareBracket =>
          simp only [parse_jitemF, recValF]
          exact ih3 ts []
        | RBrace => simp [parse_jitemF, recValF, toRest]
        | RSquareBracket => simp [parse_jitemF, recValF, toRest]
        | Colon => simp [parse_jitemF, recValF, toRest]
        | Comma => simp [parse_jitemF, recValF, toRest]
        | Number q => simp [parse_jitemF, recValF, toRest]
        | String s => simp [parse_jitemF, recValF, toRest]
        | True => simp [parse_jitemF, recValF, toRest]
        | False => simp [parse_jitemF, recValF, toRest]
        | Null => simp [parse_jitemF, recValF, toRest]
    · intro l acc
      cases l with
      | nil => simp [parse_jobjectF, recObjF, toRest]
      | cons t ts =>
        by_cases hrb : t = Token.RBrace
        · subst hrb
          simp [parse_jobjectF_close_step, recObjF, toRest]
        · cases t with
          | RBrace => exact absurd rfl hrb
          | LBrace => simp [parse_jobjectF, recObjF, toRest]
          | LSquareBracket => simp [parse_jobjectF, recObjF, toRest]
          | RSquareBracket => simp [parse_jobjectF, recObjF, toRest]
          | Colon => simp [parse_jobjectF, recObjF, toRest]
          | Comma => simp [parse_jobjectF, recObjF, toRest]
          | Number q => simp [parse_jobjectF, recObjF, toRest]
          | True => simp [parse_jobjectF, recObjF, toRest]
          | False => simp [parse_jobjectF, recObjF, toRest]
          | Null => simp [parse_jobjectF, recObjF, toRest]
          | String key =>
            have h0 : parse_jobjectF (f + 1) (.String key :: ts) acc =
                if (acc.map Prod.fst).contains key = true then .error (.duplicateKey key)
                else
                  match expect_token ts .Colon with
                  | .error e => .error e
                  | .ok ts1 =>
                    match parse_jitemF f ts1 with
                    | .error e => .error e
                    | .ok (v1, ts2) =>
                      if ts2.head? = some .RBrace then
                        .ok (.Object (acc ++ [(key, v1)]), ts2.tail)
                      else
                        match expect_token ts2 .Comma with
                        | .error e => .error e
                        | .ok ts3 => parse_jobjectF f ts3 (acc ++ [(key, v1)]) := rfl
            have r0 : recObjF (f + 1) (.String key :: ts) (acc.map Prod.fst) =
                if (acc.map Prod.fst).contains key = true then none
                else
                  if ts.head? = some .Colon then
                    match recValF f ts.tail with
                    | none => none
                    | some ts2 =>
                      if ts2.head? = some .RBrace then some ts2.tail
                      else if ts2.head? = some .Comma then
                        recObjF f ts2.tail (acc.map Prod.fst ++ [key])
                      else none
                  else none := rfl
            rw [h0, r0]
            by_cases hc : (acc.map Prod.fst).contains key = true
            · rw [if_pos hc, if_pos hc]; rfl
            · rw [if_neg hc, if_neg hc]
              cases ts with
              | nil => simp [expect_token, toRest]
              | cons c ts' =>
                by_cases hcol : c = Token.Colon
                · subst hcol
                  have hex : expect_token (Token.Colon :: ts') Token.Colon = .ok ts' := rfl
                  rw [hex]
                  rw [if_pos (by simp : (Token.Colon :: ts').head? = some Token.Colon)]
                  simp only [List.tail_cons]
                  cases hit : parse_jitemF f ts' with
                  | error e =>
                    have := ih1 ts'
                    rw [hit] at this
                    rw [← this]
                    rfl
                  | ok vts =>
                    obtain ⟨v1, ts2⟩ := vts
                    have hrec : recValF f ts' = some ts2 := by
                      have := ih1 ts'
                      rw [hit] at this
                      exact this.symm
                    rw [hrec]
                    simp only []
                    by_cases hh : ts2.head? = some Token.RBrace
                    · rw [if_pos hh, if_pos hh]; rfl
                    · rw [if_neg hh, if_neg hh]
                      cases ts2 with
                      | nil => simp [expect_token, toRest]
                      | cons c2 ts2' =>
                        by_cases hcm : c2 = Token.Comma
                        · subst hcm
                          have hex2 : expect_token (Token.Comma :: ts2') Token.Comma =
                              .ok ts2' := rfl
                          rw [hex2]
                          rw [if_pos (by simp : (Token.Comma :: ts2').head? =
                            some Token.Comma)]
                          simp only [List.tail_cons]
                          have := ih2 ts2' (acc ++ [(key, v1)])
                          simpa using this
                        · have hex2 : ∃ e, expect_token (c2 :: ts2') Token.Comma =
                              .error e := by
                            simp only [expect_token]
                            cases c2 <;> simp [sameKind] <;> try exact absurd rfl hcm
                          obtain ⟨e, hex2⟩ := hex2
                          rw [hex2]
                          rw [if_neg (by simp [hcm] : ¬(c2 :: ts2').head? =
                            some Token.Comma)]
                          rfl
                · have hex : ∃ e, expect_token (c :: ts') Token.Colon = .error e := by
                    simp only [expect_token]
                    cases c <;> simp [sameKind] <;> try exact absurd rfl hcol
                  obtain ⟨e, hex⟩ := hex
                  rw [hex]
                  rw [if_neg (by simp [hcol] : ¬(c :: ts').head? = some Token.Colon)]
                  rfl
    · intro l acc
      cases l with
      | nil => simp [parse_jarrayF, recArrF, toRest]
      | cons t ts =>
        by_cases hrb : t = Token.RSquareBracket
        · subst hrb
          simp [parse_jarrayF_close_step, recArrF, toRest]
        · rw [parse_jarrayF_cons_step hrb]
          have r0 : recArrF (f + 1) (t :: ts) =
              if t = .RSquareBracket then some ts
              else
                match recValF f (t :: ts) with
                | none => none
                | some ts2 =>
                  if ts2.head? = some .RSquareBracket then some ts2.tail
                  else if ts2.head? = some .Comma then recArrF f ts2.tail
                  else none := rfl
          rw [r0, if_neg hrb]
          cases hit : parse_jitemF f (t :: ts) with
          | error e =>
            have := ih1 (t :: ts)
            rw [hit] at this
            rw [← this]
            rfl
          | ok vts =>
            obtain ⟨v1, ts2⟩ := vts
            have hrec : recValF f (t :: ts) = some ts2 := by
              have := ih1 (t :: ts)
              rw [hit] at this
              exact this.symm
            rw [hrec]
            simp only []
            by_cases hh : ts2.head? = some Token.RSquareBracket
            · rw [if_pos hh, if_pos hh]; rfl
            · rw [if_neg hh, if_neg hh]
              cases ts2 with
              | nil => simp [expect_token, toRest]
              | cons c2 ts2' =>
                by_cases hcm : c2 = Token.Comma
                · subst hcm
                  have hex2 : expect_token (Token.Comma :: ts2') Token.Comma =
                      .ok ts2' := rfl
                  rw [hex2]
                  rw [if_pos (by simp : (Token.Comma :: ts2').head? = some Token.Comma)]
                  simp only [List.tail_cons]
                  exact ih3 ts2' (acc ++ [v1])
                · have hex2 : ∃ e, expect_token (c2 :: ts2') Token.Comma = .error e := by
                    simp only [expect_token]
                    cases c2 <;> simp [sameKind] <;> try exact absurd rfl hcm
                  obtain ⟨e, hex2⟩ := hex2
                  rw [hex2]
                  rw [if_neg (by simp [hcm] : ¬(c2 :: ts2').head? = some Token.Comma)]
                  rfl

theorem recStrictValF_some_inv {f : ℕ} {l r : List Token}
    (h : recStrictValF f l = some r) :
    ∃ f', f = f' + 1 ∧
      ((∃ ts, l = .LBrace :: ts ∧ recStrictObjF f' ts Bool.true = some r) ∨
       (∃ ts, l = .LSquareBracket :: ts ∧ recStrictArrF f' ts Bool.true = some r) ∨
       (∃ q, l = .Number q :: r) ∨ (∃ s, l = .String s :: r) ∨
       l = .True :: r ∨ l = .False :: r ∨ l = .Null :: r) := by
  cases f with
  | zero => simp [recStrictValF] at h
  | succ f' =>
    refine ⟨f', rfl, ?_⟩
    cases l with
    | nil => simp [recStrictValF] at h
    | cons t ts =>
      cases t with
      | LBrace => exact Or.inl ⟨ts, rfl, h⟩
      | LSquareBracket => exact Or.inr (Or.inl ⟨ts, rfl, h⟩)
      | RBrace => simp [recStrictValF] at h
      | RSquareBracket => simp [recStrictValF] at h
      | Colon => simp [recStrictValF] at h
      | Comma => simp [recStrictValF] at h
      | Number q =>
        simp [recStrictValF] at h
        exact Or.inr (Or.inr (Or.inl ⟨q, by rw [h]⟩))
      | String s =>
        simp [recStrictValF] at h
        exact Or.inr (Or.inr (Or.inr (Or.inl ⟨s, by rw [h]⟩)))
      | True =>
        simp [recStrictValF] at h
        exact Or.inr (Or.inr (Or.inr (Or.inr (Or.inl (by rw [h])))))
      | False =>
        simp [recStrictValF] at h
        exact Or.inr (Or.inr (Or.inr (Or.inr (Or.inr (Or.inl (by rw [h]))))))
      | Null =>
        simp [recStrictValF] at h
        exact Or.inr (Or.inr (Or.inr (Or.inr (Or.inr (Or.inr (by rw [h]))))))

theorem recStrictObjF_some_inv {f : ℕ} {l : List Token} {mc : Bool} {r : List Token}
    (h : recStrictObjF f l mc = some r) :
    ∃ f', f = f' + 1 ∧
      ((l = .RBrace :: r ∧ mc = Bool.true) ∨
       (∃ key ts1 ts2, l = .String key :: .Colon :: ts1 ∧
          recStrictValF f' ts1 = some ts2 ∧
          (ts2 = .RBrace :: r ∨
           (∃ ts3, ts2 = .Comma :: ts3 ∧ recStrictObjF f' ts3 Bool.false = some r)))) := by
  cases f with
  | zero => simp [recStrictObjF] at h
  | succ f' =>
    refine ⟨f', rfl, ?_⟩
    cases l with
    | nil => simp [recStrictObjF] at h
    | cons t ts =>
      by_cases hrb : t = Token.RBrace
      · subst hrb
        cases mc with
        | true =>
          have h0 : recStrictObjF (f' + 1) (.RBrace :: ts) Bool.true = some ts := rfl
          rw [h0] at h
          simp at h
          exact Or.inl ⟨by rw [h], rfl⟩
        | false =>
          have h0 : recStrictObjF (f' + 1) (.RBrace :: ts) Bool.false = none := rfl
          rw [h0] at h
          simp at h
      · cases t with
        | RBrace => exact absurd rfl hrb
        | LBrace => simp [recStrictObjF] at h
        | LSquareBracket => simp [recStrictObjF] at h
        | RSquareBracket => simp [recStrictObjF] at h
        | Colon => simp [recStrictObjF] at h
        | Comma => simp [recStrictObjF] at h
        | Number q => simp [recStrictObjF] at h
        | True => simp [recStrictObjF] at h
        | False => simp [recStrictObjF] at h
        | Null => simp [recStrictObjF] at h
        | String key =>
          have h0 : recStrictObjF (f' + 1) (.String key :: ts) mc =
              if ts.head? = some .Colon then
                match recStrictValF f' ts.tail with
                | none => none
                | some ts2 =>
                  if ts2.head? = some .RBrace then some ts2.tail
                  else if ts2.head? = some .Comma then
                    recStrictObjF f' ts2.tail Bool.false
                  else none
              else none := by cases mc <;> rfl
          rw [h0] at h
          cases ts with
          | nil => simp at h
          | cons c ts' =>
            by_cases hcol : c = Token.Colon
            · subst hcol
              rw [if_pos (by simp)] at h
              simp only [List.tail_cons] at h
              cases hv : recStrictValF f' ts' with
              | none => rw [hv] at h; simp at h
              | some ts2 =>
                rw [hv] at h
                simp only [] at h
                refine Or.inr ⟨key, ts', ts2, rfl, hv, ?_⟩
                by_cases hh : ts2.head? = some Token.RBrace
                · rw [if_pos hh] at h
                  cases ts2 with
                  | nil => simp at hh
                  | cons c2 tl2 =>
                    simp at hh
                    subst hh
                    simp at h
                    exact Or.inl (by rw [h])
                · rw [if_neg hh] at h
                  by_cases hcm : ts2.head? = some Token.Comma
                  · rw [if_pos hcm] at h
                    cases ts2 with
                    | nil => simp at hcm
                    | cons c2 tl2 =>
                      simp at hcm
                      subst hcm
                      exact Or.inr ⟨tl2, rfl, h⟩
                  · rw [if_neg hcm] at h
                    simp at h
            · rw [if_neg (by simp [hcol])] at h
              simp at h

theorem recStrictArrF_some_inv {f : ℕ} {l : List Token} {mc : Bool} {r : List Token}
    (h : recStrictArrF f l mc = some r) :
    ∃ f', f = f' + 1 ∧
      ((l = .RSquareBracket :: r ∧ mc = Bool.true) ∨
       (∃ t ts ts2, l = t :: ts ∧ t ≠ .RSquareBracket ∧
          recStrictValF f' (t :: ts) = some ts2 ∧
          (ts2 = .RSquareBracket :: r ∨
           (∃ ts3, ts2 = .Comma :: ts3 ∧ recStrictArrF f' ts3 Bool.false = some r)))) := by
  cases f with
  | zero => simp [recStrictArrF] at h
  | succ f' =>
    refine ⟨f', rfl, ?_⟩
    cases l with
    | nil => simp [recStrictArrF] at h
    | cons t ts =>
      by_cases hrb : t = Token.RSquareBracket
      · subst hrb
        cases mc with
        | true =>
          have h0 : recStrictArrF (f' + 1) (.RSquareBracket :: ts) Bool.true =
              some ts := rfl
          rw [h0] at h
          simp at h
          exact Or.inl ⟨by rw [h], rfl⟩
        | false =>
          have h0 : recStrictArrF (f' + 1) (.RSquareBracket :: ts) Bool.false =
              none := rfl
          rw [h0] at h
          simp at h
      · have h0 : recStrictArrF (f' + 1) (t :: ts) mc =
            match recStrictValF f' (t :: ts) with
            | none => none
            | some ts2 =>
              if ts2.head? = some .RSquareBracket then some ts2.tail
              else if ts2.head? = some .Comma then recStrictArrF f' ts2.tail Bool.false
              else none := by
          cases mc with
          | true =>
            have : recStrictArrF (f' + 1) (t :: ts) Bool.true =
                if t = .RSquareBracket then some ts
                else
                  match recStrictValF f' (t :: ts) with
                  | none => none
                  | some ts2 =>
                    if ts2.head? = some .RSquareBracket then some ts2.tail
                    else if ts2.head? = some .Comma then
                      recStrictArrF f' ts2.tail Bool.false
                    else none := rfl
            rw [this, if_neg hrb]
          | false =>
            have : recStrictArrF (f' + 1) (t :: ts) Bool.false =
                if t = .RSquareBracket then none
                else
                  match recStrictValF f' (t :: ts) with
                  | none => none
                  | some ts2 =>
                    if ts2.head? = some .RSquareBracket then some ts2.tail
                    else if ts2.head? = some .Comma then
                      recStrictArrF f' ts2.tail Bool.false
                    else none := rfl
            rw [this, if_neg hrb]
        rw [h0] at h
        cases hv : recStrictValF f' (t :: ts) with
        | none => rw [hv] at h; simp at h
        | some ts2 =>
          rw [hv] at h
          simp only [] at h
          refine Or.inr ⟨t, ts, ts2, rfl, hrb, hv, ?_⟩
          by_cases hh : ts2.head? = some Token.RSquareBracket
          · rw [if_pos hh] at h
            cases ts2 with
            | nil => simp at hh
            | cons c2 tl2 =>
              simp at hh
              subst hh
              simp at h
              exact Or.inl (by rw [h])
          · rw [if_neg hh] at h
            by_cases hcm : ts2.head? = some Token.Comma
            · rw [if_pos hcm] at h
              cases ts2 with
              | nil => simp at hcm
              | cons c2 tl2 =>
                simp at hcm
                subst hcm
                exact Or.inr ⟨tl2, rfl, h⟩
            · rw [if_neg hcm] at h
              simp at h

theorem parse_jobjectF_dup_step {f : ℕ} {key : List Char} {ts : List Token}
    {acc : List (List Char × JItem)} (hc : (acc.map Prod.fst).contains key = true) :
    parse_jobjectF (f + 1) (.String key :: ts) acc = .error (.duplicateKey key) := by
  have h0 : parse_jobjectF (f + 1) (.String key :: ts) acc =
      if (acc.map Prod.fst).contains key = true then .error (.duplicateKey key)
      else
        match expect_token ts .Colon with
        | .error e => .error e
        | .ok ts1 =>
          match parse_jitemF f ts1 with
          | .error e => .error e
          | .ok (v1, ts2) =>
            if ts2.head? = some .RBrace then .ok (.Object (acc ++ [(key, v1)]), ts2.tail)
            else
              match expect_token ts2 .Comma with
              | .error e => .error e
              | .ok ts3 => parse_jobjectF f ts3 (acc ++ [(key, v1)]) := rfl
  rw [h0, if_pos hc]

theorem strict_parse : ∀ f : ℕ,
    (∀ l r, recStrictValF f l = some r →
      (∃ v, parse_jitemF f l = .ok (v, r)) ∨
      (∃ k, parse_jitemF f l = .error (.duplicateKey k))) ∧
    (∀ l mc r acc, recStrictObjF f l mc = some r →
      (∃ v, parse_jobjectF f l acc = .ok (v, r)) ∨
      (∃ k, parse_jobjectF f l acc = .error (.duplicateKey k))) ∧
    (∀ l mc r acc, recStrictArrF f l mc = some r →
      (∃ v, parse_jarrayF f l acc = .ok (v, r)) ∨
      (∃ k, parse_jarrayF f l acc = .error (.duplicateKey k))) := by
  intro f
  induction f with
  | zero =>
    refine ⟨?_, ?_, ?_⟩
    · intro l r h; simp [recStrictValF] at h
    · intro l mc r acc h; simp [recStrictObjF] at h
    · intro l mc r acc h; simp [recStrictArrF] at h
  | succ f ih =>
    obtain ⟨ih1, ih2, ih3⟩ := ih
    refine ⟨?_, ?_, ?_⟩
    · intro l r h
      obtain ⟨f', hf, hcases⟩ := recStrictValF_some_inv h
      have hf' : f = f' := by omega
      subst hf'
      rcases hcases with ⟨ts, rfl, hobj⟩ | ⟨ts, rfl, harr⟩ | ⟨q, rfl⟩ |
        ⟨s, rfl⟩ | rfl | rfl | rfl
      · rcases ih2 ts Bool.true r [] hobj with ⟨v, hv⟩ | ⟨k, hk⟩
        · exact Or.inl ⟨v, by simp only [parse_jitemF]; exact hv⟩
        · exact Or.inr ⟨k, by simp only [parse_jitemF]; exact hk⟩
      · rcases ih3 ts Bool.true r [] harr with ⟨v, hv⟩ | ⟨k, hk⟩
        · exact Or.inl ⟨v, by simp only [parse_jitemF]; exact hv⟩
        · exact Or.inr ⟨k, by simp only [parse_jitemF]; exact hk⟩
      · exact Or.inl ⟨.Number q, rfl⟩
      · exact Or.inl ⟨.String s, rfl⟩
      · exact Or.inl ⟨.True, rfl⟩
      · exact Or.inl ⟨.False, rfl⟩
      · exact Or.inl ⟨.Null, rfl⟩
    · intro l mc r acc h
      obtain ⟨f', hf, hcases⟩ := recStrictObjF_some_inv h
      have hf' : f = f' := by omega
      subst hf'
      rcases hcases with ⟨rfl, rfl⟩ | ⟨key, ts1, ts2, rfl, hval, hcont⟩
      · exact Or.inl ⟨.Object acc, parse_jobjectF_close_step⟩
      · by_cases hc : (acc.map Prod.fst).contains key = true
        · exact Or.inr ⟨key, parse_jobjectF_dup_step hc⟩
        · have hc' : (acc.map Prod.fst).contains key = false := by
            cases hcc : (acc.map Prod.fst).contains key
            · rfl
            · exact absurd hcc hc
          rcases ih1 ts1 ts2 hval with ⟨v1, hv1⟩ | ⟨k, hk⟩
          · rcases hcont with rfl | ⟨ts3, rfl, hrec⟩
            · refine Or.inl ⟨.Object (acc ++ [(key, v1)]), ?_⟩
              rw [parse_jobjectF_pair_step hc', hv1]
              simp
            · rcases ih2 ts3 Bool.false r (acc ++ [(key, v1)]) hrec with
                ⟨v, hv⟩ | ⟨k, hk⟩
              · refine Or.inl ⟨v, ?_⟩
                rw [parse_jobjectF_pair_step hc', hv1]
                simp [expect_token, sameKind, hv]
              · refine Or.inr ⟨k, ?_⟩
                rw [parse_jobjectF_pair_step hc', hv1]
                simp [expect_token, sameKind, hk]
          · refine Or.inr ⟨k, ?_⟩
            rw [parse_jobjectF_pair_step hc', hk]
    · intro l mc r acc h
      obtain ⟨f', hf, hcases⟩ := recStrictArrF_some_inv h
      have hf' : f = f' := by omega
      subst hf'
      rcases hcases with ⟨rfl, rfl⟩ | ⟨t, ts, ts2, rfl, hne, hval, hcont⟩
      · exact Or.inl ⟨.Array acc, parse_jarrayF_close_step⟩
      · rcases ih1 (t :: ts) ts2 hval with ⟨v1, hv1⟩ | ⟨k, hk⟩
        · rcases hcont with rfl | ⟨ts3, rfl, hrec⟩
          · refine Or.inl ⟨.Array (acc ++ [v1]), ?_⟩
            rw [parse_jarrayF_cons_step hne, hv1]
            simp
          · rcases ih3 ts3 Bool.false r (acc ++ [v1]) hrec with ⟨v, hv⟩ | ⟨k, hk⟩
            · refine Or.inl ⟨v, ?_⟩
              rw [parse_jarrayF_cons_step hne, hv1]
              simp [expect_token, sameKind, hv]
            · refine Or.inr ⟨k, ?_⟩
              rw [parse_jarrayF_cons_step hne, hv1]
              simp [expect_token, sameKind, hk]
        · refine Or.inr ⟨k, ?_⟩
          rw [parse_jarrayF_cons_step hne, hk]

theorem nodupKeys_iff {ks : List (List Char)} : nodupKeys ks = true ↔ ks.Nodup := by
  induction ks with
  | nil => simp [nodupKeys]
  | cons a ks' ih => simp [nodupKeys, ih]

theorem nodupKeys_append_iff {ks : List (List Char)} {k : List Char} :
    nodupKeys (ks ++ [k]) = true ↔ nodupKeys ks = true ∧ ks.contains k = false := by
  rw [nodupKeys_iff, nodupKeys_iff]
  simp [List.nodup_append]

theorem keysOkPairs_append {ps : List (List Char × JItem)} {kv : List Char × JItem} :
    keysOkPairs (ps ++ [kv]) = (keysOkPairs ps && keysOk kv.2) := by
  induction ps with
  | nil => simp [keysOkPairs]
  | cons a ps' ih =>
    simp only [List.cons_append, keysOkPairs, List.append_eq, ih]
    cases keysOk a.2 <;> cases keysOkPairs ps' <;> cases keysOk kv.2 <;> rfl

theorem keysOkItems_append {l : List JItem} {v : JItem} :
    keysOkItems (l ++ [v]) = (keysOkItems l && keysOk v) := by
  induction l with
  | nil => simp [keysOkItems]
  | cons a l' ih =>
    simp only [List.cons_append, keysOkItems, List.append_eq, ih]
    cases keysOk a <;> cases keysOkItems l' <;> cases keysOk v <;> rfl

theorem parse_keysOk : ∀ f : ℕ,
    (∀ l v r, parse_jitemF f l = .ok (v, r) → keysOk v = true) ∧
    (∀ l acc v r, parse_jobjectF f l acc = .ok (v, r) →
      nodupKeys (acc.map Prod.fst) = true → keysOkPairs acc = true → keysOk v = true) ∧
    (∀ l acc v r, parse_jarrayF f l acc = .ok (v, r) →
      keysOkItems acc = true → keysOk v = true) := by
  intro f
  induction f with
  | zero =>
    refine ⟨?_, ?_, ?_⟩
    · intro l v r h; simp [parse_jitemF] at h
    · intro l acc v r h; simp [parse_jobjectF] at h
    · intro l acc v r h; simp [parse_jarrayF] at h
  | succ f ih =>
    obtain ⟨ih1, ih2, ih3⟩ := ih
    refine ⟨?_, ?_, ?_⟩
    · intro l v r h
      obtain ⟨f', hf, hcases⟩ := parse_jitemF_ok_inv h
      have hf' : f = f' := by omega
      subst hf'
      rcases hcases with ⟨ts, rfl, hobj⟩ | ⟨ts, rfl, harr⟩ | ⟨q, rfl, rfl⟩ |
        ⟨s, rfl, rfl⟩ | ⟨rfl, rfl⟩ | ⟨rfl, rfl⟩ | ⟨rfl, rfl⟩
      · exact ih2 ts [] v r hobj rfl rfl
      · exact ih3 ts [] v r harr rfl
      all_goals rfl
    · intro l acc v r h hnd hpa
      obtain ⟨f', hf, hcases⟩ := parse_jobjectF_ok_inv h
      have hf' : f = f' := by omega
      subst hf'
      rcases hcases with ⟨rfl, rfl⟩ | ⟨key, ts1, v1, ts2, rfl, hc, hit, hcont⟩
      · simp [keysOk, hnd, hpa]
      · have hv1 : keysOk v1 = true := ih1 ts1 v1 ts2 hit
        have hnd2 : nodupKeys (acc.map Prod.fst ++ [key]) = true := by
          rw [nodupKeys_append_iff]
          exact ⟨hnd, hc⟩
        have hnd' : nodupKeys ((acc ++ [(key, v1)]).map Prod.fst) = true := by
          simpa using hnd2
        have hpa' : keysOkPairs (acc ++ [(key, v1)]) = true := by
          rw [keysOkPairs_append]
          simp [hpa, hv1]
        rcases hcont with ⟨ts3, rfl, rfl, rfl⟩ | ⟨ts3, rfl, hrec⟩
        · simp [keysOk, hnd2, hnd', hpa']
        · exact ih2 ts3 (acc ++ [(key, v1)]) v r hrec hnd' hpa'
    · intro l acc v r h hia
      obtain ⟨f', hf, hcases⟩ := parse_jarrayF_ok_inv h
      have hf' : f = f' := by omega
      subst hf'
      rcases hcases with ⟨rfl, rfl⟩ | ⟨t, ts, v1, ts2, rfl, hne, hit, hcont⟩
      · simpa [keysOk] using hia
      · have hv1 : keysOk v1 = true := ih1 (t :: ts) v1 ts2 hit
        have hia' : keysOkItems (acc ++ [v1]) = true := by
          rw [keysOkItems_append]
          simp [hia, hv1]
        rcases hcont with ⟨ts3, rfl, rfl, rfl⟩ | ⟨ts3, rfl, hrec⟩
        · simpa [keysOk] using hia'
        · exact ih3 ts3 (acc ++ [v1]) v r hrec hia'

theorem lexStrGo_escape (c : Char) (cs acc : List Char) :
    lexStrGo ('\\' :: c :: cs) false acc = lexStrGo cs false (acc ++ [c]) := rfl

theorem lexStrGo_close (cs acc : List Char) :
    lexStrGo ('"' :: cs) false acc = .ok (acc, cs) := rfl

theorem lexStrGo_other {c : Char} (cs acc : List Char) (hb : c ≠ '\\') (hq : c ≠ '"') :
    lexStrGo (c :: cs) false acc = lexStrGo cs false (acc ++ [c]) := by
  have h0 : lexStrGo (c :: cs) false acc =
      if c = '\\' then lexStrGo cs Bool.true acc
      else if c = '"' then .ok (acc, cs)
      else lexStrGo cs false (acc ++ [c]) := rfl
  rw [h0, if_neg hb, if_neg hq]

theorem lexStrGo_unterminated_bounded : ∀ (n : ℕ) (cs : List Char), cs.length ≤ n →
    ∀ acc, noCloseQuote cs = true → lexStrGo cs false acc = .err .unterminatedString := by
  intro n
  induction n with
  | zero =>
    intro cs hlen acc hq
    cases cs with
    | nil => rfl
    | cons c cs' => simp at hlen
  | succ n ih =>
    intro cs hlen acc hq
    cases cs with
    | nil => rfl
    | cons c cs' =>
      by_cases hb : c = '\\'
      · subst hb
        cases cs' with
        | nil => rfl
        | cons d cs'' =>
          have hq' : noCloseQuote cs'' = true := by
            have h1 : noCloseQuote ('\\' :: d :: cs'') = noCloseQuote cs'' := rfl
            rw [h1] at hq
            exact hq
          rw [lexStrGo_escape]
          exact ih cs'' (by simp at hlen ⊢; omega) _ hq'
      · by_cases hquote : c = '"'
        · subst hquote
          have h1 : noCloseQuote ('"' :: cs') = false := rfl
          rw [h1] at hq
          exact absurd hq (by simp)
        · have hq' : noCloseQuote cs' = true := by
            have h1 : noCloseQuote (c :: cs') =
                if c = '\\' then noCloseQuoteEsc cs'
                else if c = '"' then false
                else noCloseQuote cs' := rfl
            rw [h1, if_neg hb, if_neg hquote] at hq
            exact hq
          rw [lexStrGo_other cs' acc hb hquote]
          exact ih cs' (by simp at hlen ⊢; omega) _ hq'

theorem lexStrGo_unterminated {cs : List Char} (acc : List Char)
    (hq : noCloseQuote cs = true) :
    lexStrGo cs false acc = .err .unterminatedString :=
  lexStrGo_unterminated_bounded cs.length cs (Nat.le_refl _) acc hq

/-! ## Decimal digits: printing and re-lexing -/
theorem digitVal_digitChr {d : ℕ} (h : d < 10) : digitVal (digitChr d) = d := by
  interval_cases d <;> rfl

theorem isDigitChar_digitChr {d : ℕ} (h : d < 10) : isDigitChar (digitChr d) = true := by
  interval_cases d <;> rfl

theorem digitChr_ne_dot {d : ℕ} (h : d < 10) : digitChr d ≠ '.' := by
  interval_cases d <;> decide

theorem isDigitChar_props {c : Char} (h : isDigitChar c = true) :
    c ≠ '.' ∧ c ≠ '-' ∧ c ≠ '"' ∧ c ≠ '\\' ∧ isAlphaChar c = false ∧ isWsChar c = false ∧
    c ≠ '{' ∧ c ≠ '}' ∧ c ≠ '[' ∧ c ≠ ']' ∧ c ≠ ':' ∧ c ≠ ',' := by
  have h' := h
  simp only [isDigitChar, Bool.and_eq_true, decide_eq_true_eq] at h'
  obtain ⟨h1, h2⟩ := h'
  have halpha : isAlphaChar c = false := by
    by_contra hca
    simp only [Bool.not_eq_false] at hca
    simp only [isAlphaChar, Bool.or_eq_true, Bool.and_eq_true, decide_eq_true_eq] at hca
    rcases hca with ⟨ha, _⟩ | ⟨ha, _⟩
    · exact absurd (le_trans ha h2) (by decide)
    · exact absurd (le_trans ha h2) (by decide)
  have hws : isWsChar c = false := by
    by_contra hcw
    simp only [Bool.not_eq_false] at hcw
    simp only [isWsChar, Bool.or_eq_true, decide_eq_true_eq] at hcw
    rcases hcw with ((rfl | rfl) | rfl) | rfl <;> exact absurd h (by decide)
  refine ⟨?_, ?_, ?_, ?_, halpha, hws, ?_, ?_, ?_, ?_, ?_, ?_⟩ <;>
    (intro hc; subst hc; exact absurd h (by decide))

theorem digitsVal_append_digit {l : List Char} {c : Char} :
    digitsVal (l ++ [c]) = 10 * digitsVal l + digitVal c := by
  simp [digitsVal, List.foldl_append]

theorem digitsVal_of_digits : ∀ ds : List ℕ, (∀ d ∈ ds, d < 10) →
    digitsVal ((ds.reverse).map digitChr) = Nat.ofDigits 10 ds := by
  intro ds
  induction ds with
  | nil => intro _; rfl
  | cons d ds ih =>
    intro h
    rw [List.reverse_cons, List.map_append, List.map_cons, List.map_nil,
      digitsVal_append_digit]
    rw [ih (fun x hx => h x (List.mem_cons_of_mem _ hx))]
    rw [digitVal_digitChr (h d (List.mem_cons_self _ _))]
    rw [Nat.ofDigits_cons]
    push_cast
    omega

theorem digitsVal_renderNat (n : ℕ) : digitsVal (renderNat n) = n := by
  unfold renderNat
  split
  · subst n; rfl
  · rw [digitsVal_of_digits _ (fun d hd => Nat.digits_lt_base (by norm_num) hd)]
    exact Nat.ofDigits_digits 10 n

theorem renderNat_all_digit {n : ℕ} : ∀ c ∈ renderNat n, isDigitChar c = true := by
  unfold renderNat
  split
  · intro c hc
    simp at hc
    subst hc
    rfl
  · intro c hc
    simp only [List.mem_map, List.mem_reverse] at hc
    obtain ⟨d, hd, rfl⟩ := hc
    exact isDigitChar_digitChr (Nat.digits_lt_base (by norm_num) hd)

theorem renderNat_ne_nil {n : ℕ} : renderNat n ≠ [] := by
  unfold renderNat
  split
  · simp
  · simp [Nat.digits_ne_nil_iff_ne_zero, *]

theorem digitsVal_replicate_zero {k : ℕ} {l : List Char} :
    digitsVal (List.replicate k '0' ++ l) = digitsVal l := by
  induction k with
  | zero => rfl
  | succ k ih =>
    rw [List.replicate_succ, List.cons_append]
    show List.foldl _ ((fun acc c => 10 * acc + digitVal c) 0 '0') _ = _
    have : (fun acc c => 10 * acc + digitVal c) 0 '0' = 0 := rfl
    rw [this]
    exact ih

theorem digits_length_le_of_lt_pow : ∀ (e m : ℕ), m < 10 ^ e →
    (Nat.digits 10 m).length ≤ e := by
  intro e
  induction e with
  | zero =>
    intro m hm
    have : m = 0 := by omega
    subst this
    simp
  | succ e ih =>
    intro m hm
    rcases Nat.eq_zero_or_pos m with rfl | hpos
    · simp
    · rw [Nat.digits_def' (by norm_num : 1 < 10) hpos]
      simp only [List.length_cons]
      have : m / 10 < 10 ^ e := by
        rw [Nat.div_lt_iff_lt_mul (by norm_num)]
        calc m < 10 ^ (e + 1) := hm
        _ = 10 ^ e * 10 := by ring
      exact Nat.succ_le_succ (ih _ this)

theorem digitsVal_fracChars {m e : ℕ} (h : m < 10 ^ e) :
    digitsVal (fracChars m e) = m := by
  unfold fracChars
  rw [digitsVal_replicate_zero]
  rw [digitsVal_of_digits _ (fun d hd => Nat.digits_lt_base (by norm_num) hd)]
  exact_mod_cast Nat.ofDigits_digits 10 m

theorem fracChars_length {m e : ℕ} (h : m < 10 ^ e) : (fracChars m e).length = e := by
  unfold fracChars
  rw [List.length_append, List.length_replicate, List.length_map, List.length_reverse]
  have := digits_length_le_of_lt_pow e m h
  omega

theorem fracChars_all_digit {m e : ℕ} : ∀ c ∈ fracChars m e, isDigitChar c = true := by
  unfold fracChars
  intro c hc
  rw [List.mem_append] at hc
  rcases hc with hc | hc
  · rw [List.eq_of_mem_replicate hc]
    rfl
  · simp only [List.mem_map, List.mem_reverse] at hc
    obtain ⟨d, hd, rfl⟩ := hc
    exact isDigitChar_digitChr (Nat.digits_lt_base (by norm_num) hd)

theorem takeWhile_all {α : Type} {p : α → Bool} :
    ∀ {l : List α}, (∀ c ∈ l, p c = true) → l.takeWhile p = l := by
  intro l
  induction l with
  | nil => intro _; rfl
  | cons a l ih =>
    intro h
    rw [List.takeWhile_cons, if_pos (h a (List.mem_cons_self _ _))]
    rw [ih (fun c hc => h c (List.mem_cons_of_mem _ hc))]

theorem dropWhile_all {α : Type} {p : α → Bool} :
    ∀ {l : List α}, (∀ c ∈ l, p c = true) → l.dropWhile p = [] := by
  intro l
  induction l with
  | nil => intro _; rfl
  | cons a l ih =>
    intro h
    rw [List.dropWhile_cons, if_pos (h a (List.mem_cons_self _ _))]
    exact ih (fun c hc => h c (List.mem_cons_of_mem _ hc))

theorem takeWhile_append_stop {α : Type} {p : α → Bool} {l1 : List α} {x : α} {l2 : List α}
    (h1 : ∀ c ∈ l1, p c = true) (hx : p x = false) :
    (l1 ++ x :: l2).takeWhile p = l1 := by
  induction l1 with
  | nil => simp [List.takeWhile_cons, hx]
  | cons a l ih =>
    rw [List.cons_append, List.takeWhile_cons, if_pos (h1 a (List.mem_cons_self _ _))]
    rw [ih (fun c hc => h1 c (List.mem_cons_of_mem _ hc))]

theorem dropWhile_append_stop {α : Type} {p : α → Bool} {l1 : List α} {x : α} {l2 : List α}
    (h1 : ∀ c ∈ l1, p c = true) (hx : p x = false) :
    (l1 ++ x :: l2).dropWhile p = x :: l2 := by
  induction l1 with
  | nil => simp [List.dropWhile_cons, hx]
  | cons a l ih =>
    rw [List.cons_append, List.dropWhile_cons, if_pos (h1 a (List.mem_cons_self _ _))]
    exact ih (fun c hc => h1 c (List.mem_cons_of_mem _ hc))

theorem numValueAbs_core (q : JNum) :
    numValueAbs (renderNumCore q) = ⟨(q.num.natAbs : ℤ), q.exp⟩ := by
  obtain ⟨n, e⟩ := q
  unfold renderNumCore numValueAbs
  by_cases he : e = 0
  · subst he
    rw [if_pos rfl]
    have hall : ∀ c ∈ renderNat n.natAbs, (fun c => decide (c ≠ '.')) c = true := by
      intro c hc
      have := (isDigitChar_props (renderNat_all_digit c hc)).1
      simpa using this
    rw [takeWhile_all hall, dropWhile_all hall]
    simp [digitsVal_renderNat]
  · rw [if_neg he]
    have hall : ∀ c ∈ renderNat (n.natAbs / 10 ^ e),
        (fun c => decide (c ≠ '.')) c = true := by
      intro c hc
      have := (isDigitChar_props (renderNat_all_digit c hc)).1
      simpa using this
    have hdot : (fun c => decide (c ≠ '.')) '.' = false := by simp
    rw [takeWhile_append_stop hall hdot, dropWhile_append_stop hall hdot]
    simp only []
    have hmod : n.natAbs % 10 ^ e < 10 ^ e := Nat.mod_lt _ (by positivity)
    rw [fracChars_length hmod, digitsVal_fracChars hmod, digitsVal_renderNat]
    congr 1
    have h2 : n.natAbs / 10 ^ e * 10 ^ e + n.natAbs % 10 ^ e = n.natAbs := by
      rw [Nat.mul_comm (n.natAbs / 10 ^ e) (10 ^ e)]
      exact Nat.div_add_mod n.natAbs (10 ^ e)
    exact congrArg (fun m : ℕ => (m : ℤ)) h2

theorem renderNumCore_head_digit (q : JNum) :
    ∃ c cs, renderNumCore q = c :: cs ∧ isDigitChar c = true := by
  unfold renderNumCore
  by_cases he : q.exp = 0
  · rw [if_pos he]
    cases hr : renderNat q.num.natAbs with
    | nil => exact absurd hr renderNat_ne_nil
    | cons c cs =>
      exact ⟨c, cs, rfl, renderNat_all_digit c (hr ▸ List.mem_cons_self _ _)⟩
  · rw [if_neg he]
    cases hr : renderNat (q.num.natAbs / 10 ^ q.exp) with
    | nil => exact absurd hr renderNat_ne_nil
    | cons c cs =>
      rw [List.cons_append]
      exact ⟨c, _, rfl, renderNat_all_digit c (hr ▸ List.mem_cons_self _ _)⟩

theorem numValue_renderNum (q : JNum) : numValue (renderNum q) = q := by
  unfold renderNum
  by_cases hneg : q.num < 0
  · rw [if_pos hneg]
    unfold numValue
    rw [if_pos (by simp)]
    simp only [List.tail_cons]
    rw [numValueAbs_core]
    obtain ⟨n, e⟩ := q
    simp only at hneg ⊢
    have : -(n.natAbs : ℤ) = n := by omega
    rw [this]
  · rw [if_neg hneg]
    unfold numValue
    obtain ⟨c, cs, hcore, hdig⟩ := renderNumCore_head_digit q
    rw [hcore]
    rw [if_neg (by
      simp only [List.head?_cons, Option.some.injEq]
      intro hc
      subst hc
      exact absurd hdig (by decide))]
    rw [← hcore, numValueAbs_core]
    obtain ⟨n, e⟩ := q
    simp only at hneg ⊢
    have : (n.natAbs : ℤ) = n := by omega
    rw [this]

theorem boundaryB_cases {rest : List Char} (h : boundaryB rest = true) :
    rest = [] ∨ ∃ c cs, rest = c :: cs ∧ (c = ',' ∨ c = ']' ∨ c = '}') := by
  cases rest with
  | nil => exact Or.inl rfl
  | cons c cs =>
    refine Or.inr ⟨c, cs, rfl, ?_⟩
    have h2 : (c = ',' ∨ c = ']') ∨ c = '}' := by simpa [boundaryB] using h
    tauto

theorem boundaryB_numStop {rest : List Char} (h : boundaryB rest = true) :
    rest = [] ∨ ∃ c cs, rest = c :: cs ∧ isDigitChar c = false ∧ c ≠ '.' := by
  rcases boundaryB_cases h with rfl | ⟨c, cs, rfl, hc⟩
  · exact Or.inl rfl
  · rcases hc with rfl | rfl | rfl <;> exact Or.inr ⟨_, cs, rfl, by decide, by decide⟩

theorem lexNumGo_digits_run : ∀ (ds : List Char) (b : Bool) (acc tail : List Char),
    (∀ c ∈ ds, isDigitChar c = true) →
    lexNumGo (ds ++ tail) b acc = lexNumGo tail b (acc ++ ds) := by
  intro ds
  induction ds with
  | nil => intro b acc tail _; rw [List.nil_append, List.append_nil]
  | cons d ds' ih =>
    intro b acc tail h
    have hd := h d (List.mem_cons_self _ _)
    have h0 : lexNumGo (d :: (ds' ++ tail)) b acc =
        if isDigitChar d then lexNumGo (ds' ++ tail) b (acc ++ [d])
        else if d = '.' then
          if b then .err .multipleDecimal
          else lexNumGo (ds' ++ tail) Bool.true (acc ++ [d])
        else .ok (acc, d :: (ds' ++ tail)) := rfl
    rw [List.cons_append, h0, if_pos hd]
    rw [ih b (acc ++ [d]) tail (fun c hc => h c (List.mem_cons_of_mem _ hc))]
    rw [List.append_assoc]
    rfl

theorem lexNumGo_stop {rest : List Char} (b : Bool) (acc : List Char)
    (h : rest = [] ∨ ∃ c cs, rest = c :: cs ∧ isDigitChar c = false ∧ c ≠ '.') :
    lexNumGo rest b acc = .ok (acc, rest) := by
  rcases h with rfl | ⟨c, cs, rfl, hd, hdot⟩
  · rfl
  · have h0 : lexNumGo (c :: cs) b acc =
        if isDigitChar c then lexNumGo cs b (acc ++ [c])
        else if c = '.' then
          if b then .err .multipleDecimal
          else lexNumGo cs Bool.true (acc ++ [c])
        else .ok (acc, c :: cs) := rfl
    rw [h0, if_neg (by simp [hd]), if_neg hdot]

theorem lexNumGo_core (q : JNum) (acc : List Char) {rest : List Char}
    (hstop : rest = [] ∨ ∃ c cs, rest = c :: cs ∧ isDigitChar c = false ∧ c ≠ '.') :
    lexNumGo (renderNumCore q ++ rest) false acc = .ok (acc ++ renderNumCore q, rest) := by
  unfold renderNumCore
  by_cases he : q.exp = 0
  · rw [if_pos he]
    rw [lexNumGo_digits_run _ _ _ _ renderNat_all_digit]
    exact lexNumGo_stop _ _ hstop
  · rw [if_neg he]
    rw [List.append_assoc, List.cons_append]
    rw [lexNumGo_digits_run _ _ _ _ renderNat_all_digit]
    have h0 : ∀ X A, lexNumGo ('.' :: X) false A = lexNumGo X Bool.true (A ++ ['.']) :=
      fun X A => rfl
    rw [h0]
    rw [lexNumGo_digits_run _ _ _ _ fracChars_all_digit]
    rw [lexNumGo_stop _ _ hstop]
    rw [List.append_assoc, List.append_assoc]
    rfl

theorem any_isDigitChar_core (q : JNum) (pre : List Char) :
    (pre ++ renderNumCore q).any isDigitChar = true := by
  obtain ⟨c, cs, hcore, hdig⟩ := renderNumCore_head_digit q
  rw [List.any_eq_true]
  exact ⟨c, by simp [hcore], hdig⟩

theorem lex_number_render_neg (q : JNum) {rest : List Char} (hneg : q.num < 0)
    (hstop : rest = [] ∨ ∃ c cs, rest = c :: cs ∧ isDigitChar c = false ∧ c ≠ '.') :
    lex_number (renderNumCore q ++ rest) '-' = .ok (.Number q, rest) := by
  unfold lex_number
  rw [lexNumGo_core q ['-'] hstop]
  show (if (['-'] ++ renderNumCore q).any isDigitChar then
      LexRes.ok (Token.Number (numValue (['-'] ++ renderNumCore q)), rest)
    else .panic) = _
  rw [if_pos (any_isDigitChar_core q ['-'])]
  have hval : numValue (['-'] ++ renderNumCore q) = q := by
    have hrn : (['-'] ++ renderNumCore q : List Char) = renderNum q := by
      unfold renderNum
      rw [if_pos hneg]
      rfl
    rw [hrn, numValue_renderNum]
  rw [hval]

theorem lex_number_render_nonneg (q : JNum) {rest : List Char} (hneg : ¬q.num < 0)
    {c : Char} {core' : List Char} (hcore : renderNumCore q = c :: core')
    (hstop : rest = [] ∨ ∃ c cs, rest = c :: cs ∧ isDigitChar c = false ∧ c ≠ '.') :
    lex_number (core' ++ rest) c = .ok (.Number q, rest) := by
  unfold lex_number
  have hgo : lexNumGo (core' ++ rest) false [c] = .ok ([c] ++ core', rest) := by
    have := lexNumGo_core q [] hstop
    rw [hcore, List.cons_append] at this
    have h0 : lexNumGo (c :: (core' ++ rest)) false [] =
        if isDigitChar c then lexNumGo (core' ++ rest) false [c]
        else if c = '.' then
          if false then .err .multipleDecimal
          else lexNumGo (core' ++ rest) Bool.true (([] : List Char) ++ [c])
        else .ok ([], c :: (core' ++ rest)) := rfl
    have hdig : isDigitChar c = true := by
      obtain ⟨c2, cs2, hc2, hd2⟩ := renderNumCore_head_digit q
      rw [hcore] at hc2
      injection hc2 with h1 h2
      rw [h1]
      exact hd2
    rw [h0, if_pos hdig] at this
    rw [this]
    simp [hcore]
  rw [hgo]
  have hany : ([c] ++ core').any isDigitChar = true := by
    rw [show ([c] ++ core' : List Char) = c :: core' from rfl, ← hcore]
    have := any_isDigitChar_core q []
    simpa using this
  show (if ([c] ++ core').any isDigitChar then
      LexRes.ok (Token.Number (numValue ([c] ++ core')), rest)
    else .panic) = _
  rw [if_pos hany]
  have hval : numValue ([c] ++ core') = q := by
    have hrn : ([c] ++ core' : List Char) = renderNum q := by
      rw [show ([c] ++ core' : List Char) = c :: core' from rfl, ← hcore]
      unfold renderNum
      rw [if_neg hneg]
    rw [hrn, numValue_renderNum]
  rw [hval]

theorem lexDispatch_digit {c : Char} (h : isDigitChar c = true) (cs : List Char) :
    lexDispatch c cs = lex_number cs c := by
  obtain ⟨hdot, hminus, hquote, hbs, halpha, hws, hlb, hrb, hlsb, hrsb, hcolon, hcomma⟩ :=
    isDigitChar_props h
  unfold lexDispatch
  rw [if_neg hlb, if_neg hrb, if_neg hlsb, if_neg hrsb, if_neg hcolon, if_neg hcomma,
    if_neg hminus, if_neg hquote, if_neg (by simp [halpha]), if_pos h]

/-- The rendered text of a number re-lexes to exactly its `Number` token. -/
theorem lexText_renderNum (q : JNum) {rest : List Char} (hb : boundaryB rest = true) :
    lexText (renderNum q ++ rest) = lexPrepend [Token.Number q] (lexText rest) := by
  have hstop := boundaryB_numStop hb
  by_cases hneg : q.num < 0
  · have hrn : renderNum q = '-' :: renderNumCore q := by
      unfold renderNum
      rw [if_pos hneg]
    rw [hrn, List.cons_append, lexText_cons]
    rw [if_neg (by decide : ¬isWsChar '-' = true)]
    have hd : lexDispatch '-' (renderNumCore q ++ rest) =
        lex_number (renderNumCore q ++ rest) '-' := rfl
    rw [hd, lex_number_render_neg q hneg hstop]
  · have hrn : renderNum q = renderNumCore q := by
      unfold renderNum
      rw [if_neg hneg]
    obtain ⟨c, core', hcore, hdig⟩ := renderNumCore_head_digit q
    rw [hrn, hcore, List.cons_append, lexText_cons]
    rw [if_neg (by simp [(isDigitChar_props hdig).2.2.2.2.2.1])]
    rw [lexDispatch_digit hdig]
    rw [lex_number_render_nonneg q hneg hcore hstop]

theorem cleanStr_cons {a : Char} {s : List Char} (h : cleanStr (a :: s) = true) :
    a ≠ '"' ∧ a ≠ '\\' ∧ cleanStr s = true := by
  simp only [cleanStr, List.all_cons, Bool.and_eq_true, Bool.not_eq_true',
    Bool.or_eq_false_iff, decide_eq_false_iff_not] at h
  exact ⟨h.1.1, h.1.2, by simpa [cleanStr] using h.2⟩

theorem lexStrGo_clean : ∀ (s acc rest : List Char), cleanStr s = true →
    lexStrGo (s ++ '"' :: rest) false acc = .ok (acc ++ s, rest) := by
  intro s
  induction s with
  | nil =>
    intro acc rest _
    rw [List.nil_append, lexStrGo_close, List.append_nil]
  | cons a s' ih =>
    intro acc rest h
    obtain ⟨hq, hbs, hs'⟩ := cleanStr_cons h
    rw [List.cons_append, lexStrGo_other _ _ hbs hq]
    rw [ih (acc ++ [a]) rest hs']
    rw [List.append_assoc]
    rfl

/-- The rendered text of a clean string re-lexes to exactly its token. -/
theorem lexText_renderStr (s : List Char) {rest : List Char} (hc : cleanStr s = true) :
    lexText (('"' :: s ++ ['"']) ++ rest) = lexPrepend [Token.String s] (lexText rest) := by
  have hshape : ('"' :: s ++ ['"']) ++ rest = '"' :: (s ++ '"' :: rest) := by
    simp
  rw [hshape, lexText_cons]
  rw [if_neg (by decide : ¬isWsChar '"' = true)]
  have hd : lexDispatch '"' (s ++ '"' :: rest) = lex_string (s ++ '"' :: rest) := rfl
  rw [hd]
  unfold lex_string
  rw [lexStrGo_clean s [] rest hc]
  rfl

theorem lexIdentGo_stop {rest : List Char} (acc : List Char)
    (h : rest = [] ∨ ∃ c cs, rest = c :: cs ∧ isAlphaChar c = false) :
    lexIdentGo rest acc = (acc, rest) := by
  rcases h with rfl | ⟨c, cs, rfl, hc⟩
  · rfl
  · have h0 : lexIdentGo (c :: cs) acc =
        if isAlphaChar c then lexIdentGo cs (acc ++ [c]) else (acc, c :: cs) := rfl
    rw [h0, if_neg (by simp [hc])]

theorem boundaryB_identStop {rest : List Char} (h : boundaryB rest = true) :
    rest = [] ∨ ∃ c cs, rest = c :: cs ∧ isAlphaChar c = false := by
  rcases boundaryB_cases h with rfl | ⟨c, cs, rfl, hc⟩
  · exact Or.inl rfl
  · rcases hc with rfl | rfl | rfl <;> exact Or.inr ⟨_, cs, rfl, by decide⟩

theorem lexText_true {rest : List Char} (hb : boundaryB rest = true) :
    lexText ("true".data ++ rest) = lexPrepend [Token.True] (lexText rest) := by
  show lexText ('t' :: ("rue".data ++ rest)) = _
  rw [lexText_cons]
  rw [if_neg (by decide : ¬isWsChar 't' = true)]
  have hd : lexDispatch 't' ("rue".data ++ rest) = lex_ident ("rue".data ++ rest) 't' := rfl
  rw [hd]
  unfold lex_ident
  have hgo : lexIdentGo ("rue".data ++ rest) ['t'] = ("true".data, rest) := by
    have h1 : lexIdentGo ("rue".data ++ rest) ['t'] = lexIdentGo rest "true".data := rfl
    rw [h1, lexIdentGo_stop _ (boundaryB_identStop hb)]
  rw [hgo]
  rfl

theorem lexText_false {rest : List Char} (hb : boundaryB rest = true) :
    lexText ("false".data ++ rest) = lexPrepend [Token.False] (lexText rest) := by
  show lexText ('f' :: ("alse".data ++ rest)) = _
  rw [lexText_cons]
  rw [if_neg (by decide : ¬isWsChar 'f' = true)]
  have hd : lexDispatch 'f' ("alse".data ++ rest) =
      lex_ident ("alse".data ++ rest) 'f' := rfl
  rw [hd]
  unfold lex_ident
  have hgo : lexIdentGo ("alse".data ++ rest) ['f'] = ("false".data, rest) := by
    have h1 : lexIdentGo ("alse".data ++ rest) ['f'] = lexIdentGo rest "false".data := rfl
    rw [h1, lexIdentGo_stop _ (boundaryB_identStop hb)]
  rw [hgo]
  rfl

theorem lexText_null {rest : List Char} (hb : boundaryB rest = true) :
    lexText ("null".data ++ rest) = lexPrepend [Token.Null] (lexText rest) := by
  show lexText ('n' :: ("ull".data ++ rest)) = _
  rw [lexText_cons]
  rw [if_neg (by decide : ¬isWsChar 'n' = true)]
  have hd : lexDispatch 'n' ("ull".data ++ rest) = lex_ident ("ull".data ++ rest) 'n' := rfl
  rw [hd]
  unfold lex_ident
  have hgo : lexIdentGo ("ull".data ++ rest) ['n'] = ("null".data, rest) := by
    have h1 : lexIdentGo ("ull".data ++ rest) ['n'] = lexIdentGo rest "null".data := rfl
    rw [h1, lexIdentGo_stop _ (boundaryB_identStop hb)]
  rw [hgo]
  rfl

theorem lexPrepend_nil (r : LexRes (List Token)) : lexPrepend [] r = r := by
  cases r <;> simp [lexPrepend]

theorem lexPrepend_append (a b : List Token) (r : LexRes (List Token)) :
    lexPrepend (a ++ b) r = lexPrepend a (lexPrepend b r) := by
  cases r <;> simp [lexPrepend]

theorem lexText_tok {c : Char} {t : Token} (hws : isWsChar c = false)
    (hd : ∀ rest, lexDispatch c rest = .ok (t, rest)) (rest : List Char) :
    lexText (c :: rest) = lexPrepend [t] (lexText rest) := by
  rw [lexText_cons, if_neg (by simp [hws]), hd]

theorem lexText_commaTok (rest : List Char) :
    lexText (',' :: rest) = lexPrepend [Token.Comma] (lexText rest) :=
  @lexText_tok ',' Token.Comma (by decide) (fun r => rfl) rest

theorem lexText_colonTok (rest : List Char) :
    lexText (':' :: rest) = lexPrepend [Token.Colon] (lexText rest) :=
  @lexText_tok ':' Token.Colon (by decide) (fun r => rfl) rest

theorem lexText_lbraceTok (rest : List Char) :
    lexText ('{' :: rest) = lexPrepend [Token.LBrace] (lexText rest) :=
  @lexText_tok '{' Token.LBrace (by decide) (fun r => rfl) rest

theorem lexText_rbraceTok (rest : List Char) :
    lexText ('}' :: rest) = lexPrepend [Token.RBrace] (lexText rest) :=
  @lexText_tok '}' Token.RBrace (by decide) (fun r => rfl) rest

theorem lexText_lsqTok (rest : List Char) :
    lexText ('[' :: rest) = lexPrepend [Token.LSquareBracket] (lexText rest) :=
  @lexText_tok '[' Token.LSquareBracket (by decide) (fun r => rfl) rest

theorem lexText_rsqTok (rest : List Char) :
    lexText (']' :: rest) = lexPrepend [Token.RSquareBracket] (lexText rest) :=
  @lexText_tok ']' Token.RSquareBracket (by decide) (fun r => rfl) rest

theorem lexItems_aux : ∀ (l : List JItem),
    (∀ x ∈ l, ∀ rest, cleanVal x = true → boundaryB rest = true →
      lexText (renderVal x ++ rest) = lexPrepend (tokensOf x) (lexText rest)) →
    cleanItems l = true → ∀ rest, boundaryB rest = true →
    lexText (renderItems l ++ rest) = lexPrepend (tokensOfItems l) (lexText rest) := by
  intro l
  induction l with
  | nil =>
    intro _ _ rest _
    rw [show renderItems [] = [] from rfl, show tokensOfItems [] = [] from rfl,
      List.nil_append, lexPrepend_nil]
  | cons v l' ih =>
    intro hmem hclean rest hrest
    have hcv : cleanVal v = true := by
      have := hclean
      simp only [cleanItems, Bool.and_eq_true] at this
      exact this.1
    have hcl' : cleanItems l' = true := by
      have := hclean
      simp only [cleanItems, Bool.and_eq_true] at this
      exact this.2
    cases l' with
    | nil =>
      rw [show renderItems [v] = renderVal v from rfl,
        show tokensOfItems [v] = tokensOf v from rfl]
      exact hmem v (List.mem_cons_self _ _) rest hcv hrest
    | cons w l'' =>
      rw [show renderItems (v :: w :: l'') = renderVal v ++ ',' :: renderItems (w :: l'')
        from rfl]
      rw [show tokensOfItems (v :: w :: l'') = tokensOf v ++ .Comma :: tokensOfItems (w :: l'')
        from rfl]
      rw [List.append_assoc]
      rw [hmem v (List.mem_cons_self _ _) _ hcv (by rfl)]
      rw [List.cons_append]
      rw [lexText_commaTok]
      rw [ih (fun x hx => hmem x (List.mem_cons_of_mem _ hx)) hcl' rest hrest]
      rw [lexPrepend_append]
      rw [show (Token.Comma :: tokensOfItems (w :: l'') : List Token) =
        [Token.Comma] ++ tokensOfItems (w :: l'') from rfl]
      rw [lexPrepend_append]

theorem lexPairs_aux : ∀ (ps : List (List Char × JItem)),
    (∀ kv ∈ ps, ∀ rest, cleanVal kv.2 = true → boundaryB rest = true →
      lexText (renderVal kv.2 ++ rest) = lexPrepend (tokensOf kv.2) (lexText rest)) →
    cleanPairs ps = true → ∀ rest, boundaryB rest = true →
    lexText (renderPairs ps ++ rest) = lexPrepend (tokensOfPairs ps) (lexText rest) := by
  intro ps
  induction ps with
  | nil =>
    intro _ _ rest _
    rw [show renderPairs [] = [] from rfl, show tokensOfPairs [] = [] from rfl,
      List.nil_append, lexPrepend_nil]
  | cons kv ps' ih =>
    intro hmem hclean rest hrest
    obtain ⟨k, v⟩ := kv
    have hck : cleanStr k = true := by
      have := hclean
      simp only [cleanPairs, Bool.and_eq_true] at this
      exact this.1.1
    have hcv : cleanVal v = true := by
      have := hclean
      simp only [cleanPairs, Bool.and_eq_true] at this
      exact this.1.2
    have hcp' : cleanPairs ps' = true := by
      have := hclean
      simp only [cleanPairs, Bool.and_eq_true] at this
      exact this.2
    cases ps' with
    | nil =>
      rw [show renderPairs [(k, v)] = '"' :: k ++ '"' :: ':' :: renderVal v from rfl]
      rw [show tokensOfPairs [(k, v)] = .String k :: .Colon :: tokensOf v from rfl]
      have hshape : ('"' :: k ++ '"' :: ':' :: renderVal v) ++ rest =
          ('"' :: k ++ ['"']) ++ (':' :: (renderVal v ++ rest)) := by
        simp
      rw [hshape, lexText_renderStr k hck]
      rw [lexText_colonTok]
      rw [hmem (k, v) (List.mem_cons_self _ _) rest hcv hrest]
      rw [show (Token.String k :: Token.Colon :: tokensOf v : List Token) =
        [Token.String k] ++ ([Token.Colon] ++ tokensOf v) from rfl]
      rw [lexPrepend_append, lexPrepend_append]
    | cons kv2 ps'' =>
      rw [show renderPairs ((k, v) :: kv2 :: ps'') =
        '"' :: k ++ '"' :: ':' :: renderVal v ++ ',' :: renderPairs (kv2 :: ps'') from rfl]
      rw [show tokensOfPairs ((k, v) :: kv2 :: ps'') =
        .String k :: .Colon :: tokensOf v ++ .Comma :: tokensOfPairs (kv2 :: ps'')
        from rfl]
      have hshape : ('"' :: k ++ '"' :: ':' :: renderVal v ++
          ',' :: renderPairs (kv2 :: ps'')) ++ rest =
          ('"' :: k ++ ['"']) ++ (':' :: (renderVal v ++
            (',' :: (renderPairs (kv2 :: ps'') ++ rest)))) := by
        simp
      rw [hshape, lexText_renderStr k hck]
      rw [lexText_colonTok]
      rw [hmem (k, v) (List.mem_cons_self _ _) _ hcv (by rfl)]
      rw [lexText_commaTok]
      rw [ih (fun x hx => hmem x (List.mem_cons_of_mem _ hx)) hcp' rest hrest]
      cases lexText rest <;> simp [lexPrepend]

/-- Re-lexing a rendered clean value inside a stream produces exactly its
token image. -/
theorem lex_render : ∀ v : JItem, ∀ rest, cleanVal v = true → boundaryB rest = true →
    lexText (renderVal v ++ rest) = lexPrepend (tokensOf v) (lexText rest) := by
  intro v
  induction v using JItem.inductionNested with
  | hstr s =>
    intro rest hc hb
    rw [show renderVal (.String s) = '"' :: s ++ ['"'] from rfl]
    exact lexText_renderStr s (by simpa [cleanVal] using hc)
  | hnum q =>
    intro rest hc hb
    rw [show renderVal (.Number q) = renderNum q from rfl]
    exact lexText_renderNum q hb
  | htru =>
    intro rest hc hb
    rw [show renderVal .True = "true".data from rfl]
    exact lexText_true hb
  | hfls =>
    intro rest hc hb
    rw [show renderVal .False = "false".data from rfl]
    exact lexText_false hb
  | hnul =>
    intro rest hc hb
    rw [show renderVal .Null = "null".data from rfl]
    exact lexText_null hb
  | harr l hmem =>
    intro rest hc hb
    rw [show renderVal (.Array l) = '[' :: renderItems l ++ [']'] from rfl]
    rw [show tokensOf (.Array l) = .LSquareBracket :: tokensOfItems l ++ [.RSquareBracket]
      from rfl]
    have hshape : ('[' :: renderItems l ++ [']']) ++ rest =
        '[' :: (renderItems l ++ (']' :: rest)) := by simp
    rw [hshape]
    rw [lexText_lsqTok]
    rw [lexItems_aux l hmem (by simpa [cleanVal] using hc) (']' :: rest) (by rfl)]
    rw [lexText_rsqTok]
    cases lexText rest <;> simp [lexPrepend]
  | hobj ps hmem =>
    intro rest hc hb
    rw [show renderVal (.Object ps) = '{' :: renderPairs ps ++ ['}'] from rfl]
    rw [show tokensOf (.Object ps) = .LBrace :: tokensOfPairs ps ++ [.RBrace] from rfl]
    have hshape : ('{' :: renderPairs ps ++ ['}']) ++ rest =
        '{' :: (renderPairs ps ++ ('}' :: rest)) := by simp
    rw [hshape]
    rw [lexText_lbraceTok]
    rw [lexPairs_aux ps hmem (by simpa [cleanVal] using hc) ('}' :: rest) (by rfl)]
    rw [lexText_rbraceTok]
    cases lexText rest <;> simp [lexPrepend]

theorem nodupKeys_middle_left {xs ys : List (List Char)} {k : List Char}
    (h : nodupKeys (xs ++ k :: ys) = true) : xs.contains k = false := by
  rw [nodupKeys_iff, List.nodup_append] at h
  cases hc : xs.contains k with
  | false => rfl
  | true =>
    have hm : k ∈ xs := by simpa using hc
    exact absurd (List.mem_cons_self _ _) (h.2.2 hm)

theorem tokensOf_head : ∀ v : JItem, ∃ t ts, tokensOf v = t :: ts ∧
    t ≠ Token.RSquareBracket := by
  intro v
  cases v with
  | Object ps => exact ⟨_, _, rfl, fun h => Token.noConfusion h⟩
  | Array l => exact ⟨_, _, rfl, fun h => Token.noConfusion h⟩
  | String s => exact ⟨_, _, rfl, fun h => Token.noConfusion h⟩
  | Number q => exact ⟨_, _, rfl, fun h => Token.noConfusion h⟩
  | True => exact ⟨_, _, rfl, fun h => Token.noConfusion h⟩
  | False => exact ⟨_, _, rfl, fun h => Token.noConfusion h⟩
  | Null => exact ⟨_, _, rfl, fun h => Token.noConfusion h⟩

theorem parse_back_obj : ∀ (ps : List (List Char × JItem)),
    (∀ kv ∈ ps, keysOk kv.2 = true → ∃ f0, f0 ≤ 2 * (tokensOf kv.2).length ∧
      ∀ rest, parse_jitemF f0 (tokensOf kv.2 ++ rest) = .ok (kv.2, rest)) →
    keysOkPairs ps = true →
    ∀ acc, nodupKeys ((acc ++ ps).map Prod.fst) = true →
    ∃ f0, f0 ≤ 2 * (tokensOfPairs ps).length + 1 ∧
      ∀ rest, parse_jobjectF f0 (tokensOfPairs ps ++ Token.RBrace :: rest) acc =
        .ok (.Object (acc ++ ps), rest) := by
  intro ps
  induction ps with
  | nil =>
    intro _ _ acc _
    refine ⟨1, by simp [tokensOfPairs], fun rest => ?_⟩
    rw [show tokensOfPairs [] ++ Token.RBrace :: rest = Token.RBrace :: rest from rfl]
    rw [show (1 : ℕ) = 0 + 1 from rfl, parse_jobjectF_close_step]
    simp
  | cons kv ps' ih =>
    intro hmem hclean acc hnd
    obtain ⟨k, v⟩ := kv
    have hkv : keysOk v = true := by
      have := hclean
      simp only [keysOkPairs, Bool.and_eq_true] at this
      exact this.1
    have hkps' : keysOkPairs ps' = true := by
      have := hclean
      simp only [keysOkPairs, Bool.and_eq_true] at this
      exact this.2
    have hnd' : nodupKeys (acc.map Prod.fst ++ k :: ps'.map Prod.fst) = true := by
      simpa using hnd
    have hc : (acc.map Prod.fst).contains k = false := nodupKeys_middle_left hnd'
    obtain ⟨fv, hfvle0, hfv0⟩ := hmem (k, v) (List.mem_cons_self _ _) hkv
    have hfvle : fv ≤ 2 * (tokensOf v).length := hfvle0
    have hfv : ∀ rest, parse_jitemF fv (tokensOf v ++ rest) = .ok (v, rest) := hfv0
    cases ps' with
    | nil =>
      refine ⟨fv + 1, ?_, fun rest => ?_⟩
      · simp only [tokensOfPairs, List.length_cons]
        omega
      · rw [show tokensOfPairs [(k, v)] ++ Token.RBrace :: rest =
          Token.String k :: Token.Colon :: (tokensOf v ++ Token.RBrace :: rest) from
          by simp [tokensOfPairs]]
        rw [parse_jobjectF_pair_step hc, hfv (Token.RBrace :: rest)]
        simp
    | cons kv2 ps'' =>
      have hnd2 : nodupKeys (((acc ++ [(k, v)]) ++ kv2 :: ps'').map Prod.fst) = true := by
        rw [show (acc ++ [(k, v)]) ++ kv2 :: ps'' = acc ++ ((k, v) :: kv2 :: ps'') from
          by simp]
        exact hnd
      obtain ⟨f1, hf1le, hf1⟩ := ih (fun x hx => hmem x (List.mem_cons_of_mem _ hx))
        hkps' (acc ++ [(k, v)]) hnd2
      refine ⟨max fv f1 + 1, ?_, fun rest => ?_⟩
      · simp only [tokensOfPairs, List.length_cons, List.length_append] at hf1le ⊢
        omega
      · rw [show tokensOfPairs ((k, v) :: kv2 :: ps'') ++ Token.RBrace :: rest =
          Token.String k :: Token.Colon :: (tokensOf v ++
            (Token.Comma :: (tokensOfPairs (kv2 :: ps'') ++ Token.RBrace :: rest))) from
          by simp [tokensOfPairs]]
        rw [parse_jobjectF_pair_step hc]
        have hv' := (parse_ok_mono fv).1 (max fv f1) _ v
          (Token.Comma :: (tokensOfPairs (kv2 :: ps'') ++ Token.RBrace :: rest))
          (le_max_left _ _) (hfv _)
        rw [hv']
        simp only []
        rw [if_neg (by simp)]
        rw [show expect_token
          (Token.Comma :: (tokensOfPairs (kv2 :: ps'') ++ Token.RBrace :: rest))
          Token.Comma = .ok (tokensOfPairs (kv2 :: ps'') ++ Token.RBrace :: rest)
          from rfl]
        simp only []
        have hrec := (parse_ok_mono f1).2.1 (max fv f1) _ (acc ++ [(k, v)]) _ _
          (le_max_right _ _) (hf1 rest)
        rw [hrec]
        simp

theorem parse_back_arr : ∀ (l : List JItem),
    (∀ x ∈ l, keysOk x = true → ∃ f0, f0 ≤ 2 * (tokensOf x).length ∧
      ∀ rest, parse_jitemF f0 (tokensOf x ++ rest) = .ok (x, rest)) →
    keysOkItems l = true →
    ∀ acc, ∃ f0, f0 ≤ 2 * (tokensOfItems l).length + 1 ∧
      ∀ rest, parse_jarrayF f0 (tokensOfItems l ++ Token.RSquareBracket :: rest) acc =
        .ok (.Array (acc ++ l), rest) := by
  intro l
  induction l with
  | nil =>
    intro _ _ acc
    refine ⟨1, by simp [tokensOfItems], fun rest => ?_⟩
    rw [show tokensOfItems [] ++ Token.RSquareBracket :: rest =
      Token.RSquareBracket :: rest from rfl]
    rw [show (1 : ℕ) = 0 + 1 from rfl, parse_jarrayF_close_step]
    simp
  | cons v l' ih =>
    intro hmem hclean acc
    have hkv : keysOk v = true := by
      have := hclean
      simp only [keysOkItems, Bool.and_eq_true] at this
      exact this.1
    have hkl' : keysOkItems l' = true := by
      have := hclean
      simp only [keysOkItems, Bool.and_eq_true] at this
      exact this.2
    obtain ⟨fv, hfvle, hfv⟩ := hmem v (List.mem_cons_self _ _) hkv
    obtain ⟨t, ts, hts, hne⟩ := tokensOf_head v
    cases l' with
    | nil =>
      refine ⟨fv + 1, ?_, fun rest => ?_⟩
      · simp only [tokensOfItems]
        omega
      · rw [show tokensOfItems [v] ++ Token.RSquareBracket :: rest =
          tokensOf v ++ Token.RSquareBracket :: rest from rfl]
        rw [hts, List.cons_append, parse_jarrayF_cons_step hne]
        have hv' := hfv (Token.RSquareBracket :: rest)
        rw [hts, List.cons_append] at hv'
        rw [hv']
        simp
    | cons w l'' =>
      obtain ⟨f1, hf1le, hf1⟩ := ih (fun x hx => hmem x (List.mem_cons_of_mem _ hx))
        hkl' (acc ++ [v])
      refine ⟨max fv f1 + 1, ?_, fun rest => ?_⟩
      · simp only [tokensOfItems, List.length_cons, List.length_append] at hf1le ⊢
        omega
      · rw [show tokensOfItems (v :: w :: l'') ++ Token.RSquareBracket :: rest =
          tokensOf v ++
            (Token.Comma :: (tokensOfItems (w :: l'') ++ Token.RSquareBracket :: rest))
          from by simp [tokensOfItems]]
        rw [hts, List.cons_append, parse_jarrayF_cons_step hne]
        have hv' := (parse_ok_mono fv).1 (max fv f1) _ v
          (Token.Comma :: (tokensOfItems (w :: l'') ++ Token.RSquareBracket :: rest))
          (le_max_left _ _) (hfv _)
        rw [hts, List.cons_append] at hv'
        rw [hv']
        simp only []
        rw [if_neg (by simp)]
        rw [show expect_token
          (Token.Comma :: (tokensOfItems (w :: l'') ++ Token.RSquareBracket :: rest))
          Token.Comma =
          .ok (tokensOfItems (w :: l'') ++ Token.RSquareBracket :: rest) from rfl]
        simp only []
        have hrec := (parse_ok_mono f1).2.2 (max fv f1) _ (acc ++ [v]) _ _
          (le_max_right _ _) (hf1 rest)
        rw [hrec]
        simp

theorem parse_back : ∀ v : JItem, keysOk v = true →
    ∃ f0, f0 ≤ 2 * (tokensOf v).length ∧
      ∀ rest, parse_jitemF f0 (tokensOf v ++ rest) = .ok (v, rest) := by
  intro v
  induction v using JItem.inductionNested with
  | hstr s => exact fun _ => ⟨1, by simp only [tokensOf, List.length_cons]; omega, fun rest => rfl⟩
  | hnum q => exact fun _ => ⟨1, by simp only [tokensOf, List.length_cons]; omega, fun rest => rfl⟩
  | htru => exact fun _ => ⟨1, by simp only [tokensOf, List.length_cons]; omega, fun rest => rfl⟩
  | hfls => exact fun _ => ⟨1, by simp only [tokensOf, List.length_cons]; omega, fun rest => rfl⟩
  | hnul => exact fun _ => ⟨1, by simp only [tokensOf, List.length_cons]; omega, fun rest => rfl⟩
  | harr l hmem =>
    intro hk
    have hki : keysOkItems l = true := by simpa [keysOk] using hk
    obtain ⟨f1, hle, hf1⟩ := parse_back_arr l hmem hki []
    refine ⟨f1 + 1, ?_, fun rest => ?_⟩
    · simp only [tokensOf, List.length_cons, List.length_append] at hle ⊢
      omega
    · rw [show tokensOf (.Array l) ++ rest =
        Token.LSquareBracket :: (tokensOfItems l ++ Token.RSquareBracket :: rest) from
        by simp [tokensOf]]
      rw [show parse_jitemF (f1 + 1)
        (Token.LSquareBracket :: (tokensOfItems l ++ Token.RSquareBracket :: rest)) =
        parse_jarrayF f1 (tokensOfItems l ++ Token.RSquareBracket :: rest) [] from rfl]
      rw [hf1 rest]
      simp
  | hobj ps hmem =>
    intro hk
    have hk' : nodupKeys (ps.map Prod.fst) = true ∧ keysOkPairs ps = true := by
      simpa [keysOk, Bool.and_eq_true] using hk
    have hnd : nodupKeys ((([] : List (List Char × JItem)) ++ ps).map Prod.fst) = true := by
      simpa using hk'.1
    obtain ⟨f1, hle, hf1⟩ := parse_back_obj ps hmem hk'.2 [] hnd
    refine ⟨f1 + 1, ?_, fun rest => ?_⟩
    · simp only [tokensOf, List.length_cons, List.length_append] at hle ⊢
      omega
    · rw [show tokensOf (.Object ps) ++ rest =
        Token.LBrace :: (tokensOfPairs ps ++ Token.RBrace :: rest) from
        by simp [tokensOf]]
      rw [show parse_jitemF (f1 + 1)
        (Token.LBrace :: (tokensOfPairs ps ++ Token.RBrace :: rest)) =
        parse_jobjectF f1 (tokensOfPairs ps ++ Token.RBrace :: rest) [] from rfl]
      rw [hf1 rest]
      simp

theorem parse_tokens_tokensOf {v : JItem} (hk : keysOk v = true) :
    parse_tokens (tokensOf v) = .ok v := by
  obtain ⟨f0, hle, hf⟩ := parse_back v hk
  rw [parse_tokens_ok_iff]
  have h := hf []
  rw [List.append_nil] at h
  exact (parse_ok_mono f0).1 _ _ _ _ (by omega) h

/-- Rendering a value whose objects have distinct keys and whose strings are
clean, then running the whole pipeline, recovers the value. -/
theorem render_parse {v : JItem} (hk : keysOk v = true) (hc : cleanVal v = true) :
    parseText (renderVal v) = .ok v := by
  have hlex : lexText (renderVal v) = .ok (tokensOf v) := by
    have h := lex_render v [] hc (by rfl)
    rw [List.append_nil] at h
    rw [h, show lexText [] = LexRes.ok ([] : List Token) from rfl]
    simp [lexPrepend]
  unfold parseText
  rw [hlex]
  simp only []
  rw [parse_tokens_tokensOf hk]

theorem parseText_ok_inv {t : List Char} {v : JItem} (h : parseText t = .ok v) :
    ∃ ts, lexText t = .ok ts ∧ parse_tokens ts = .ok v := by
  unfold parseText at h
  cases hl : lexText t with
  | ok ts =>
    rw [hl] at h
    simp only [] at h
    cases hp : parse_tokens ts with
    | ok w =>
      rw [hp] at h
      simp only [] at h
      cases h
      exact ⟨ts, rfl, hp⟩
    | error e => rw [hp] at h; simp at h
  | err e => rw [hl] at h; simp at h
  | panic => rw [hl] at h; simp at h

theorem parseText_keysOk {t : List Char} {v : JItem} (h : parseText t = .ok v) :
    keysOk v = true := by
  obtain ⟨ts, _, hp⟩ := parseText_ok_inv h
  rw [parse_tokens_ok_iff] at hp
  exact (parse_keysOk (2 * ts.length + 1)).1 ts v [] hp

theorem expect_token_error_names {ts : List Token} {expected : Token} {e : PErr}
    (h : expect_token ts expected = .error e) :
    namesExpected e = true ∧ namesFound e = true := by
  cases ts with
  | nil =>
    have h0 : expect_token [] expected = .error (.expectEof expected) := rfl
    rw [h0] at h
    cases h
    exact ⟨rfl, rfl⟩
  | cons t ts' =>
    have h0 : expect_token (t :: ts') expected =
        if sameKind t expected then .ok ts' else .error (.expectMismatch expected t) := rfl
    rw [h0] at h
    by_cases hk : sameKind t expected = true
    · rw [if_pos hk] at h; cases h
    · rw [if_neg hk] at h
      cases h
      exact ⟨rfl, rfl⟩

theorem parse_tokens_iff_recTop {l : List Token} :
    (∃ v, parse_tokens l = .ok v) ↔ recTop l = some [] := by
  constructor
  · rintro ⟨v, h⟩
    rw [parse_tokens_ok_iff] at h
    have ha := (parser_rec_agree (2 * l.length + 1)).1 l
    rw [h] at ha
    rw [recTop, ← ha]
    rfl
  · intro h
    have ha := (parser_rec_agree (2 * l.length + 1)).1 l
    rw [recTop] at h
    obtain ⟨v, hv⟩ := toRest_eq_some (ha.trans h)
    exact ⟨v, parse_tokens_ok_iff.mpr hv⟩

theorem strictTop_parse_or_dup {l : List Token} (h : recStrictTop l = some []) :
    (∃ v, parse_tokens l = .ok v) ∨ ∃ k, parse_tokens l = .error (.duplicateKey k) := by
  rw [recStrictTop] at h
  rcases (strict_parse (2 * l.length + 1)).1 l [] h with ⟨v, hv⟩ | ⟨k, hk⟩
  · exact Or.inl ⟨v, parse_tokens_ok_iff.mpr hv⟩
  · right
    refine ⟨k, ?_⟩
    unfold parse_tokens
    rw [hk]

theorem strict_not_rec_dup {l : List Token} (hs : recStrictTop l = some [])
    (hr : recTop l = none) : ∃ k, parse_tokens l = .error (.duplicateKey k) := by
  rcases strictTop_parse_or_dup hs with hok | hdup
  · rw [parse_tokens_iff_recTop] at hok
    rw [hok] at hr
    cases hr
  · exact hdup

theorem lexText_quote_unterminated {cs : List Char} (h : noCloseQuote cs = true) :
    lexText ('"' :: cs) = .err .unterminatedString := by
  rw [lexText_cons, if_neg (by decide)]
  have hdisp : lexDispatch '"' cs = LexRes.err LErr.unterminatedString := by
    have h1 : lexDispatch '"' cs = lex_string cs := rfl
    rw [h1]
    unfold lex_string
    rw [lexStrGo_unterminated [] h]
  rw [hdisp]

/-! ## The spec's claims -/
/-- C1 (amended): the round trip is claimed for every parse result, but the
printer escapes nothing, so it holds exactly for values whose string payloads
and object keys contain no `'"'` and no `'\\'` (`cleanVal`): if `parseText t`
yields `v` and `v` is clean, then parsing the rendered text yields `v`
again. -/
theorem C1_round_trip (t : List Char) (v : JItem) (h : parseText t = .ok v)
    (hc : cleanVal v = true) : parseText (renderVal v) = .ok v :=
  render_parse (parseText_keysOk h) hc

/-- C1, counterexample to the unrestricted claim: the four-character text
`"\""` parses to the string holding one quote, but rendering that value
produces three bare quotes, whose trailing quote starts an unterminated
string literal. -/
theorem C1_counterexample :
    parseText "\"\\\"\"".data = .ok (.String "\"".data) ∧
    parseText (renderVal (.String "\"".data)) = .lexErr .unterminatedString :=
  ⟨rfl, rfl⟩

/-- C1 witness: a concrete object round-trips. -/
theorem C1_round_trip_witness :
    parseText "\x7b\"a\":[1,true]\x7d".data =
      .ok (.Object [("a".data, .Array [.Number ⟨1, 0⟩, .True])]) ∧
    cleanVal (.Object [("a".data, .Array [.Number ⟨1, 0⟩, .True])]) = true ∧
    parseText (renderVal (JItem.Object [("a".data, .Array [.Number ⟨1, 0⟩, .True])])) =
      .ok (.Object [("a".data, .Array [.Number ⟨1, 0⟩, .True])]) :=
  ⟨rfl, rfl, C1_round_trip "\x7b\"a\":[1,true]\x7d".data
    (JItem.Object [("a".data, .Array [.Number ⟨1, 0⟩, .True])]) rfl rfl⟩

/-- C2, refuted by the code: `lex_number` parses the accumulated literal with
`.unwrap()`, and the one-character input `-` accumulates the literal `"-"`,
which `f64` parsing rejects — the call panics instead of returning an
error. -/
theorem C2_lex_panics : lexText "-".data = .panic ∧ parseText "-".data = .panic :=
  ⟨rfl, rfl⟩

/-- C3 (amended): `parse_tokens` succeeds exactly on the claimed grammar
extended with an optional trailing comma before `}` and `]` and restricted to
objects with pairwise-distinct keys (`recTop`), consuming the whole
sequence. -/
theorem C3_grammar (l : List Token) :
    (∃ v, parse_tokens l = .ok v) ↔ recTop l = some [] :=
  parse_tokens_iff_recTop

/-- C3, counterexample to the claim as stated: `[true,]` is outside the
claimed grammar yet parses, and an object with a duplicated key is inside the
claimed grammar yet fails. -/
theorem C3_counterexample :
    (parse_tokens [.LSquareBracket, .True, .Comma, .RSquareBracket] =
        .ok (.Array [.True]) ∧
     recStrictTop [.LSquareBracket, .True, .Comma, .RSquareBracket] = none) ∧
    (recStrictTop [.LBrace, .String "a".data, .Colon, .Number ⟨1, 0⟩, .Comma,
        .String "a".data, .Colon, .Number ⟨2, 0⟩, .RBrace] = some [] ∧
     parse_tokens [.LBrace, .String "a".data, .Colon, .Number ⟨1, 0⟩, .Comma,
        .String "a".data, .Colon, .Number ⟨2, 0⟩, .RBrace] =
       .error (.duplicateKey "a".data)) :=
  ⟨⟨rfl, rfl⟩, ⟨rfl, rfl⟩⟩

/-- C4, refuted by the code: `j_item.rs` declares `Number(i64)` while the
lexer's `Token::Number` carries `f64` and `parse_jitem` builds
`JItem::Number(*num)` directly from it, so the crate does not type-check as
written.  The embedding follows the spec's floating-point intent with an
exact decimal payload, under which the fractional literal `-10.5` parses to
the non-integer value `-21/2`. -/
theorem C4_number_payload :
    parseText "-10.5".data = .ok (.Number ⟨-105, 1⟩) ∧
    JNum.denote ⟨-105, 1⟩ = -(21 / 2 : ℚ) ∧
    2 * JNum.denote ⟨-105, 1⟩ = -21 :=
  ⟨rfl, by norm_num [JNum.denote], by norm_num [JNum.denote]⟩

/-- C5: a token sequence derivable in the claimed grammar that the parser's
accepted language rejects fails precisely with a duplicate-key error; no
parse result ever contains an object with two equal keys (so no overwrite
happens); and the spec's own example fails with the duplicate-key error. -/
theorem C5_duplicate_keys :
    (∀ l : List Token, recStrictTop l = some [] → recTop l = none →
      ∃ k, parse_tokens l = .error (.duplicateKey k)) ∧
    (∀ (t : List Char) (v : JItem), parseText t = .ok v → keysOk v = true) ∧
    parseText "\x7b\"a\":1,\"a\":2\x7d".data = .parseErr (.duplicateKey "a".data) :=
  ⟨fun _ hs hr => strict_not_rec_dup hs hr, fun _ _ h => parseText_keysOk h, rfl⟩

/-- C5 witness: a concrete duplicated-key object fails with the duplicate-key
error, and a concrete parse result has distinct keys. -/
theorem C5_duplicate_keys_witness :
    (∃ k, parse_tokens [.LBrace, .String "b".data, .Colon, .True, .Comma,
      .String "b".data, .Colon, .Null, .RBrace] = .error (.duplicateKey k)) ∧
    keysOk (.Object [("a".data, .True)]) = true :=
  ⟨C5_duplicate_keys.1 [.LBrace, .String "b".data, .Colon, .True, .Comma,
      .String "b".data, .Colon, .Null, .RBrace] rfl rfl,
   C5_duplicate_keys.2.1 "\x7b\"a\":true\x7d".data (.Object [("a".data, .True)]) rfl⟩

/-- C6 (amended): the errors produced by `expect_token` name both the
expected token kind and the found token (or EOF); the claim fails for the
value dispatcher's catch-all error, which names only the found token. -/
theorem C6_expect_errors (ts : List Token) (expected : Token) (e : PErr)
    (h : expect_token ts expected = .error e) :
    namesExpected e = true ∧ namesFound e = true :=
  expect_token_error_names h

/-- C6, counterexample to the claim as stated: a lone `:` makes the parser
fail with `Unexpected 'Colon' during parse.`, which names no expected
kind. -/
theorem C6_counterexample :
    parse_tokens [.Colon] = .error (.unexpectedToken .Colon) ∧
    namesExpected (.unexpectedToken .Colon) = false :=
  ⟨rfl, rfl⟩

/-- C6 witness: a concrete `expect_token` failure names both sides. -/
theorem C6_expect_errors_witness :
    namesExpected (PErr.expectEof .Colon) = true ∧
    namesFound (PErr.expectEof .Colon) = true :=
  C6_expect_errors [] .Colon (.expectEof .Colon) rfl

/-- C7: inside a string literal a backslash appends the next character
literally (dropping the backslash), an unescaped quote terminates the
literal with the accumulated text, and input that ends without an unescaped
closing quote fails with the unterminated-string error. -/
theorem C7_string_literals :
    (∀ (c : Char) (cs acc : List Char),
      lexStrGo ('\\' :: c :: cs) false acc = lexStrGo cs false (acc ++ [c])) ∧
    (∀ cs acc : List Char, lexStrGo ('"' :: cs) false acc = .ok (acc, cs)) ∧
    (∀ cs : List Char, noCloseQuote cs = true →
      lexText ('"' :: cs) = .err .unterminatedString) :=
  ⟨lexStrGo_escape, lexStrGo_close, fun _ h => lexText_quote_unterminated h⟩

/-- C7 witness: the three behaviours at concrete inputs. -/
theorem C7_string_literals_witness :
    lexStrGo ['\\', 'n'] false [] = lexStrGo [] false ['n'] ∧
    lexStrGo ['"'] false [] = .ok ([], []) ∧
    (noCloseQuote "ab".data = true ∧
      lexText ('"' :: "ab".data) = .err .unterminatedString) :=
  ⟨C7_string_literals.1 'n' [] [], C7_string_literals.2.1 [] [],
   ⟨rfl, C7_string_literals.2.2 "ab".data rfl⟩⟩

/-- C8: `-12.5` lexes to exactly one Number token denoting `-25/2`, and
`1.2.3` fails with the multiple-decimal-point error. -/
theorem C8_number_examples :
    lexText "-12.5".data = .ok [.Number ⟨-125, 1⟩] ∧
    JNum.denote ⟨-125, 1⟩ = -(25 / 2 : ℚ) ∧
    lexText "1.2.3".data = .err .multipleDecimal :=
  ⟨rfl, by norm_num [JNum.denote], rfl⟩

/-- C9: appending any nonempty token suffix to a successfully parsed
sequence makes `parse_tokens` fail with the tokens-left error, and
`parse_tokens` succeeds exactly when a single value consumes the entire
sequence. -/
theorem C9_tokens_left :
    (∀ (l : List Token) (v : JItem) (e : List Token), parse_tokens l = .ok v →
      e ≠ [] → parse_tokens (l ++ e) = .error .tokensLeft) ∧
    (∀ (l : List Token) (v : JItem), parse_tokens l = .ok v ↔
      parse_jitemF (2 * l.length + 1) l = .ok (v, [])) :=
  ⟨fun _ _ _ h he => parse_tokens_append h he, fun _ _ => parse_tokens_ok_iff⟩

/-- C9 witness: one trailing token after a complete value. -/
theorem C9_tokens_left_witness :
    parse_tokens [Token.True, Token.False] = .error .tokensLeft :=
  C9_tokens_left.1 [Token.True] .True [Token.False] rfl (by simp)

/-- C10: the lexer needs no separator between adjacent number literals:
`1-2` lexes to exactly the two Number tokens denoting `1` and `-2`. -/
theorem C10_adjacent_numbers :
    lexText "1-2".data = .ok [.Number ⟨1, 0⟩, .Number ⟨-2, 0⟩] ∧
    JNum.denote ⟨1, 0⟩ = 1 ∧ JNum.denote ⟨-2, 0⟩ = -2 :=
  ⟨rfl, by norm_num [JNum.denote], by norm_num [JNum.denote]⟩
